import Mathlib

/-!
This file is a shallow embedding, in Lean 4, of the package
`django_migration_extensions` (files `__init__.py`, `apps.py`, `strategies.py`,
`utils.py` and the two management commands), together with proofs about the
embedded program.

Conventions of the embedding:
* Python dicts are insertion-ordered association lists (`List (κ × α)`), with
  `pyLookup` for `d[k]` / `k in d` and `pyAssign` for `d[k] = v` (which keeps
  the position of an existing key and appends a fresh one, as CPython does).
* Python sets are modelled as duplicate-free lists in insertion order
  (`pySetAdd`, `pySet`).  CPython iterates a set in a hash-dependent order;
  the insertion order is one concrete deterministic choice of that order.
* Migration operations are classified exactly as `utils.is_model_operation` /
  `utils.is_field_operation` classify them on Django >= 1.10: by an
  `isinstance` test against the `ModelOperation` / `FieldOperation` base
  classes, which are disjoint.  A separate dynamically-typed model of those
  two functions (`is_model_operation_py3`, further below) captures their
  actual runtime behaviour on Python 3, where `get_version() >= (1, 10)`
  compares a `str` with a `tuple`.
-/

/-- A Django migration operation, as seen by the classification in
`utils.is_model_operation` / `utils.is_field_operation`: a model-level
operation (subclass of `ModelOperation`, carrying `name_lower`), a
field-level operation (subclass of `FieldOperation`, carrying
`model_name_lower`), or any other operation (e.g. `RunPython`, `RunSQL`). -/
inductive Operation where
  | modelOp (name_lower : String)
  | fieldOp (model_name_lower : String)
  | otherOp (kind : String)
deriving DecidableEq

/-- `utils.is_model_operation`, Django >= 1.10 branch:
`isinstance(operation, ModelOperation)`. -/
def is_model_operation : Operation → Bool
  | .modelOp _ => true
  | _ => false

/-- `utils.is_field_operation`, Django >= 1.10 branch:
`isinstance(operation, FieldOperation)`. -/
def is_field_operation : Operation → Bool
  | .fieldOp _ => true
  | _ => false

/-- A `Migration` object: `app_label`, `name` and its list of operations. -/
structure Migration where
  app_label : String
  name : String
  operations : List Operation
deriving DecidableEq

/-- A model is identified by the pair `(app_label, model_name_lower)`. -/
abbrev MModel := String × String

/-- `ModelDetectConflictStrategy._find_models_changed`: for each operation of
the migration, yield `(migration.app_label, operation.name_lower)` if it is a
model operation, `(migration.app_label, operation.model_name_lower)` if it is
a field operation, and nothing otherwise.  (The `if`/`elif` of the source is
faithfully rendered by the match, the two operation classes being
disjoint.) -/
def _find_models_changed (migration : Migration) : List MModel :=
  migration.operations.filterMap fun operation =>
    match operation with
    | .modelOp name_lower => some (migration.app_label, name_lower)
    | .fieldOp model_name_lower => some (migration.app_label, model_name_lower)
    | .otherOp _ => none

/-! ### Python dict / set model -/

/-- `d[k]` on a Python dict modelled as an insertion-ordered assoc list. -/
def pyLookup {κ α : Type} [DecidableEq κ] : List (κ × α) → κ → Option α
  | [], _ => none
  | e :: rest, k => if e.1 = k then some e.2 else pyLookup rest k

/-- `d[k] = v` on a Python dict: overwrite in place, or append a new key. -/
def pyAssign {κ α : Type} [DecidableEq κ] : List (κ × α) → κ → α → List (κ × α)
  | [], k, v => [(k, v)]
  | e :: rest, k, v => if e.1 = k then (k, v) :: rest else e :: pyAssign rest k v

/-- `s.add(x)` on a Python set, modelled in insertion order. -/
def pySetAdd {β : Type} [DecidableEq β] (s : List β) (x : β) : List β :=
  if x ∈ s then s else s ++ [x]

/-- `set(iterable)`, modelled in insertion order. -/
def pySet {β : Type} [DecidableEq β] (l : List β) : List β :=
  l.foldl pySetAdd []

/-! ### Graph, loader, strategy -/

/-- The host `MigrationGraph`, treated as an opaque supplier of
`nodes` (a dict from `(app_label, migration_name)` to `Migration`) and of the
list that its `leaf_nodes()` method returns. -/
structure MigrationGraph where
  nodes : List (MModel × Migration)
  leaves : List MModel

/-- `graph.leaf_nodes()`. -/
def MigrationGraph.leaf_nodes (g : MigrationGraph) : List MModel :=
  g.leaves

/-- The host `MigrationLoader`, as used by the strategies: only its `graph`
matters here. -/
structure MigrationLoader where
  graph : MigrationGraph

/-- `loader.get_migration(app_label, name)`.  The host raises
`NodeNotFoundError` when the node is absent; the theorems below only invoke
it on nodes present in the graph, so the default value is never exercised. -/
def MigrationLoader.get_migration (l : MigrationLoader)
    (app_label migration_name : String) : Migration :=
  (pyLookup l.graph.nodes (app_label, migration_name)).getD
    ⟨app_label, migration_name, []⟩

/-- `BaseConflictStrategy.__init__` stores the loader; a
`ModelDetectConflictStrategy` is just that state. -/
structure ModelDetectConflictStrategy where
  loader : MigrationLoader

/-- The loop state of `ModelDetectConflictStrategy.detect_conflicts`:
`seen_models` maps a model to the set of migration names that changed it,
`conflicting_models` is the set of models seen in more than one migration. -/
structure DetectState where
  seen_models : List (MModel × List String)
  conflicting_models : List MModel

/-- The body of the inner loop of `detect_conflicts`: for one `model` of one
`migration`, `if model in seen_models: conflicting_models.add(model)` and then
`seen_models.setdefault(model, set()).add(migration.name)`.  Both updates read
the `seen_models` of the state before the iteration, as in the source. -/
def detectInner (migration : Migration) (st : DetectState) (model : MModel) :
    DetectState :=
  { seen_models :=
      match pyLookup st.seen_models model with
      | some s => pyAssign st.seen_models model (pySetAdd s migration.name)
      | none => st.seen_models ++ [(model, [migration.name])]
    conflicting_models :=
      if (pyLookup st.seen_models model).isSome then
        pySetAdd st.conflicting_models model
      else st.conflicting_models }

/-- One iteration of the outer loop of `detect_conflicts`:
`models = set(self._find_models_changed(migration))`, then the inner loop
over those models. -/
def detectStep (st : DetectState) (migration : Migration) : DetectState :=
  (pySet (_find_models_changed migration)).foldl (detectInner migration) st

/-- The state after the loop of `detect_conflicts` over the leaf migrations. -/
def detect_state (migrations : List Migration) : DetectState :=
  migrations.foldl detectStep ⟨[], []⟩

/-- The leaf migrations examined by `detect_conflicts`:
`itertools.starmap(self.loader.get_migration, graph.leaf_nodes())`. -/
def leafMigrations (self : ModelDetectConflictStrategy)
    (graph : MigrationGraph) : List Migration :=
  graph.leaf_nodes.map fun p => self.loader.get_migration p.1 p.2

/-- `ModelDetectConflictStrategy.detect_conflicts`: the returned dict
`{app_label: seen_models[(app_label, model_name)] for (app_label, model_name)
in conflicting_models}`. -/
def ModelDetectConflictStrategy.detect_conflicts
    (self : ModelDetectConflictStrategy) (graph : MigrationGraph) :
    List (String × List String) :=
  let st := detect_state (leafMigrations self graph)
  st.conflicting_models.foldl
    (fun d model => pyAssign d model.1 ((pyLookup st.seen_models model).getD []))
    []

/-! ### Specification-side notions for `detect_conflicts` -/

/-- `migration` changes `model` when `model` is among the models yielded by
`_find_models_changed migration`. -/
def touches (model : MModel) (migration : Migration) : Prop :=
  model ∈ _find_models_changed migration

instance (model : MModel) (migration : Migration) : Decidable (touches model migration) :=
  inferInstanceAs (Decidable (model ∈ _find_models_changed migration))

/-- The migrations of a list that change a given model. -/
def touchers (migrations : List Migration) (model : MModel) : List Migration :=
  migrations.filter fun migration => decide (touches model migration)

/-- The names of the migrations of a list that change a given model, in list
order. -/
def touchNames (migrations : List Migration) (model : MModel) : List String :=
  (touchers migrations model).map Migration.name

/-! ### Lemmas about the dict/set model -/

theorem pyLookup_pyAssign_self {κ α : Type} [DecidableEq κ]
    (d : List (κ × α)) (k : κ) (v : α) :
    pyLookup (pyAssign d k v) k = some v := by
  induction d with
  | nil => simp [pyAssign, pyLookup]
  | cons e rest ih =>
    by_cases h : e.1 = k
    · simp [pyAssign, h, pyLookup]
    · simp [pyAssign, h, pyLookup, ih]

theorem pyLookup_pyAssign_ne {κ α : Type} [DecidableEq κ]
    (d : List (κ × α)) (k : κ) (v : α) (k' : κ) (h : k ≠ k') :
    pyLookup (pyAssign d k v) k' = pyLookup d k' := by
  induction d with
  | nil => simp [pyAssign, pyLookup, h]
  | cons e rest ih =>
    by_cases he : e.1 = k
    · simp [pyAssign, he, pyLookup, h]
    · simp [pyAssign, he, pyLookup, ih]

theorem pyLookup_append_single_none {κ α : Type} [DecidableEq κ]
    {d : List (κ × α)} {k : κ} (m : κ) (v : α) (h : pyLookup d k = none) :
    pyLookup (d ++ [(m, v)]) k = if m = k then some v else none := by
  induction d with
  | nil => simp [pyLookup]
  | cons e rest ih =>
    simp only [pyLookup] at h
    by_cases he : e.1 = k
    · rw [if_pos he] at h
      exact absurd h (by simp)
    · rw [if_neg he] at h
      rw [List.cons_append]
      simp only [pyLookup, if_neg he]
      exact ih h

theorem pyLookup_append_single_some {κ α : Type} [DecidableEq κ]
    {d : List (κ × α)} {k : κ} {w : α} (m : κ) (v : α)
    (h : pyLookup d k = some w) :
    pyLookup (d ++ [(m, v)]) k = some w := by
  induction d with
  | nil => simp [pyLookup] at h
  | cons e rest ih =>
    simp only [pyLookup] at h
    by_cases he : e.1 = k
    · rw [if_pos he] at h
      rw [List.cons_append]
      simp only [pyLookup, if_pos he]
      exact h
    · rw [if_neg he] at h
      rw [List.cons_append]
      simp only [pyLookup, if_neg he]
      exact ih h

theorem mem_pySetAdd {β : Type} [DecidableEq β] (s : List β) (x y : β) :
    x ∈ pySetAdd s y ↔ x ∈ s ∨ x = y := by
  unfold pySetAdd
  by_cases h : y ∈ s
  · simp only [h, if_pos]
    constructor
    · exact Or.inl
    · rintro (hx | rfl)
      · exact hx
      · exact h
  · simp [h]

theorem pySetAdd_nodup {β : Type} [DecidableEq β] {s : List β} (hs : s.Nodup)
    (y : β) : (pySetAdd s y).Nodup := by
  unfold pySetAdd
  by_cases h : y ∈ s
  · simpa [h]
  · simpa [h, List.nodup_append] using hs

theorem pySetAdd_of_not_mem {β : Type} [DecidableEq β] {s : List β} {y : β}
    (h : y ∉ s) : pySetAdd s y = s ++ [y] := by
  simp [pySetAdd, h]

theorem pySet_go {β : Type} [DecidableEq β] :
    ∀ (l acc : List β), acc.Nodup →
      (l.foldl pySetAdd acc).Nodup ∧
        ∀ x, x ∈ l.foldl pySetAdd acc ↔ x ∈ acc ∨ x ∈ l := by
  intro l
  induction l with
  | nil => intro acc hacc; simpa using hacc
  | cons y rest ih =>
    intro acc hacc
    obtain ⟨h1, h2⟩ := ih (pySetAdd acc y) (pySetAdd_nodup hacc y)
    refine ⟨h1, fun x => ?_⟩
    rw [List.foldl_cons, h2 x, mem_pySetAdd]
    constructor
    · rintro ((hx | rfl) | hx)
      · exact Or.inl hx
      · simp
      · simp [hx]
    · rintro (hx | hx)
      · exact Or.inl (Or.inl hx)
      · rcases List.mem_cons.mp hx with rfl | hx
        · exact Or.inl (Or.inr rfl)
        · exact Or.inr hx

theorem pySet_nodup {β : Type} [DecidableEq β] (l : List β) :
    (pySet l).Nodup :=
  (pySet_go l [] List.nodup_nil).1

theorem mem_pySet {β : Type} [DecidableEq β] (l : List β) (x : β) :
    x ∈ pySet l ↔ x ∈ l := by
  have := (pySet_go l [] List.nodup_nil).2 x
  simpa [pySet] using this

theorem pyLookup_foldl_pyAssign {κ α : Type} [DecidableEq κ] :
    ∀ (L : List (κ × α)) (d : List (κ × α)) (k : κ),
      pyLookup (L.foldl (fun d e => pyAssign d e.1 e.2) d) k =
        match (L.filter fun e => decide (e.1 = k)).getLast? with
        | some e => some e.2
        | none => pyLookup d k := by
  intro L
  induction L with
  | nil => intro d k; simp
  | cons e rest ih =>
    intro d k
    rw [List.foldl_cons, ih]
    by_cases he : e.1 = k
    · rw [List.filter_cons_of_pos (by simpa using he)]
      cases hr : (rest.filter fun e => decide (e.1 = k)).getLast? with
      | some e' =>
        have hne : (rest.filter fun e => decide (e.1 = k)) ≠ [] := by
          intro h; rw [h] at hr; simp at hr
        obtain ⟨c, t, hct⟩ := List.exists_cons_of_ne_nil hne
        rw [hct] at hr ⊢
        simp only [List.getLast?_cons_cons, hr]
      | none =>
        have : (rest.filter fun e => decide (e.1 = k)) = [] :=
          List.getLast?_eq_none_iff.mp hr
        rw [this]
        simp only [List.getLast?_singleton]
        subst he
        exact pyLookup_pyAssign_self d e.1 e.2
    · rw [List.filter_cons_of_neg (by simpa using he)]
      cases hr : (rest.filter fun e => decide (e.1 = k)).getLast? with
      | some e' => rfl
      | none => exact pyLookup_pyAssign_ne d e.1 e.2 k he

/-! ### Invariant of the `detect_conflicts` loop -/

theorem touches_app {model : MModel} {migration : Migration}
    (h : touches model migration) : model.1 = migration.app_label := by
  unfold touches _find_models_changed at h
  obtain ⟨op, _, hop⟩ := List.mem_filterMap.mp h
  cases op with
  | modelOp n => cases hop; rfl
  | fieldOp n => cases hop; rfl
  | otherOp k => simp at hop

theorem detectInner_seen (mg : Migration) (st : DetectState) (model k : MModel) :
    pyLookup (detectInner mg st model).seen_models k =
      if k = model then
        match pyLookup st.seen_models model with
        | some s => some (pySetAdd s mg.name)
        | none => some [mg.name]
      else pyLookup st.seen_models k := by
  unfold detectInner
  cases h : pyLookup st.seen_models model with
  | none =>
    by_cases hk : k = model
    · subst hk
      rw [if_pos rfl, pyLookup_append_single_none k [mg.name] h, if_pos rfl]
    · rw [if_neg hk]
      cases hw : pyLookup st.seen_models k with
      | none =>
        rw [pyLookup_append_single_none model [mg.name] hw,
          if_neg (fun hmk => hk hmk.symm)]
      | some w => exact pyLookup_append_single_some model [mg.name] hw
  | some s =>
    by_cases hk : k = model
    · subst hk
      rw [if_pos rfl]
      exact pyLookup_pyAssign_self st.seen_models k (pySetAdd s mg.name)
    · rw [if_neg hk]
      exact pyLookup_pyAssign_ne st.seen_models model (pySetAdd s mg.name) k
        (fun hmk => hk hmk.symm)

theorem detectInner_conflicting (mg : Migration) (st : DetectState)
    (model k : MModel) :
    k ∈ (detectInner mg st model).conflicting_models ↔
      k ∈ st.conflicting_models ∨
        (k = model ∧ (pyLookup st.seen_models model).isSome) := by
  unfold detectInner
  by_cases h : (pyLookup st.seen_models model).isSome
  · simp only [h, if_pos, mem_pySetAdd, and_true]
  · simp only [h, if_neg, Bool.false_eq_true, and_false, or_false]
    simp [h]

theorem detectStep_fold (mg : Migration) :
    ∀ (models : List MModel) (st : DetectState), models.Nodup →
      (∀ k, pyLookup ((models.foldl (detectInner mg) st).seen_models) k =
          if k ∈ models then
            match pyLookup st.seen_models k with
            | some s => some (pySetAdd s mg.name)
            | none => some [mg.name]
          else pyLookup st.seen_models k)
      ∧ (∀ k, k ∈ (models.foldl (detectInner mg) st).conflicting_models ↔
          k ∈ st.conflicting_models ∨
            (k ∈ models ∧ (pyLookup st.seen_models k).isSome)) := by
  intro models
  induction models with
  | nil => intro st _; simp
  | cons model rest ih =>
    intro st hnd
    have hmodel : model ∉ rest := (List.nodup_cons.mp hnd).1
    obtain ⟨ih1, ih2⟩ := ih (detectInner mg st model) (List.nodup_cons.mp hnd).2
    constructor
    · intro k
      rw [List.foldl_cons, ih1 k]
      by_cases hkr : k ∈ rest
      · have hkm : k ≠ model := fun h => hmodel (h ▸ hkr)
        rw [if_pos hkr, if_pos (List.mem_cons_of_mem model hkr),
          detectInner_seen, if_neg hkm]
      · rw [if_neg hkr]
        by_cases hkm : k = model
        · subst hkm
          rw [detectInner_seen, if_pos rfl, if_pos (List.mem_cons_self k rest)]
        · rw [detectInner_seen, if_neg hkm,
            if_neg (by simp [hkm, hkr])]
    · intro k
      rw [List.foldl_cons, ih2 k, detectInner_conflicting]
      by_cases hkm : k = model
      · subst hkm
        have : k ∉ rest := hmodel
        simp [this, detectInner_seen]
      · by_cases hkr : k ∈ rest
        · have hseen : pyLookup (detectInner mg st model).seen_models k =
              pyLookup st.seen_models k := by
            rw [detectInner_seen, if_neg hkm]
          simp [hseen, hkm, hkr]
        · simp [hkm, hkr]

theorem touchers_append (P : List Migration) (mg : Migration) (k : MModel) :
    touchers (P ++ [mg]) k =
      touchers P k ++ if touches k mg then [mg] else [] := by
  unfold touchers
  rw [List.filter_append]
  congr 1
  by_cases h : touches k mg <;> simp [h]

theorem touchNames_eq_nil (P : List Migration) (k : MModel) :
    touchNames P k = [] ↔ (touchers P k).length = 0 := by
  unfold touchNames
  rw [List.map_eq_nil_iff, List.length_eq_zero]

theorem mem_touchers {P : List Migration} {k : MModel} {m : Migration} :
    m ∈ touchers P k ↔ m ∈ P ∧ touches k m := by
  unfold touchers
  simp [List.mem_filter]

/-- The invariant of the outer loop of `detect_conflicts` after the prefix
`P` of migrations has been processed. -/
def DetectInv (P : List Migration) (st : DetectState) : Prop :=
  (∀ k, pyLookup st.seen_models k =
      if touchNames P k = [] then none else some (touchNames P k))
  ∧ (∀ k, k ∈ st.conflicting_models ↔ 2 ≤ (touchers P k).length)

theorem detectStep_inv (P : List Migration) (mg : Migration) (st : DetectState)
    (hInv : DetectInv P st)
    (hfresh : (mg.app_label, mg.name) ∉ P.map fun m => (m.app_label, m.name)) :
    DetectInv (P ++ [mg]) (detectStep st mg) := by
  obtain ⟨hseen, hconf⟩ := hInv
  obtain ⟨hf1, hf2⟩ :=
    detectStep_fold mg (pySet (_find_models_changed mg)) st (pySet_nodup _)
  have hstep : detectStep st mg =
      (pySet (_find_models_changed mg)).foldl (detectInner mg) st := rfl
  constructor
  · intro k
    rw [hstep, hf1 k, hseen k]
    by_cases ht : touches k mg
    · rw [if_pos ((mem_pySet _ _).mpr ht)]
      have htn : touchNames (P ++ [mg]) k = touchNames P k ++ [mg.name] := by
        unfold touchNames
        rw [touchers_append, if_pos ht]
        simp
      by_cases hz : touchNames P k = []
      · rw [if_pos hz, htn, hz]
        simp
      · rw [if_neg hz]
        have hmem : mg.name ∉ touchNames P k := by
          intro hm
          obtain ⟨m, hmT, hmn⟩ := List.mem_map.mp hm
          obtain ⟨hmP, hmt⟩ := mem_touchers.mp hmT
          have h1 : k.1 = m.app_label := touches_app hmt
          have h2 : k.1 = mg.app_label := touches_app ht
          refine hfresh (List.mem_map.mpr ⟨m, hmP, ?_⟩)
          rw [← h1, h2, hmn]
        show some (pySetAdd (touchNames P k) mg.name) = _
        rw [pySetAdd_of_not_mem hmem, htn]
        rw [if_neg (by simp)]
    · rw [if_neg (fun hm => ht ((mem_pySet _ _).mp hm))]
      have htn : touchNames (P ++ [mg]) k = touchNames P k := by
        unfold touchNames
        rw [touchers_append, if_neg ht]
        simp
      rw [htn]
  · intro k
    rw [hstep, hf2 k, hconf k, hseen k]
    have hlen : (touchers (P ++ [mg]) k).length =
        (touchers P k).length + (if touches k mg then 1 else 0) := by
      rw [touchers_append]
      by_cases ht : touches k mg <;> simp [ht]
    rw [hlen]
    by_cases ht : touches k mg
    · rw [if_pos ht]
      have hmem : k ∈ pySet (_find_models_changed mg) := (mem_pySet _ _).mpr ht
      simp only [hmem, true_and]
      by_cases hz : touchNames P k = []
      · have h0 : (touchers P k).length = 0 := (touchNames_eq_nil P k).mp hz
        simp [hz, h0]
      · have h0 : (touchers P k).length ≠ 0 :=
          fun h => hz ((touchNames_eq_nil P k).mpr h)
        rw [if_neg hz]
        clear hlen
        simp only [Option.isSome_some, and_true, or_true, true_iff]
        omega
    · rw [if_neg ht]
      have hmem : k ∉ pySet (_find_models_changed mg) :=
        fun hm => ht ((mem_pySet _ _).mp hm)
      simp [hmem]

theorem detect_fold_inv :
    ∀ (rest P : List Migration) (st : DetectState),
      DetectInv P st →
      ((P ++ rest).map fun m => (m.app_label, m.name)).Nodup →
      DetectInv (P ++ rest) (rest.foldl detectStep st) := by
  intro rest
  induction rest with
  | nil => intro P st h _; simpa using h
  | cons mg rest' ih =>
    intro P st hInv hnd
    have hmap : ((P ++ mg :: rest').map fun m => (m.app_label, m.name)) =
        (P.map fun m => (m.app_label, m.name)) ++
          ((mg.app_label, mg.name) :: rest'.map fun m => (m.app_label, m.name)) := by
      simp
    have hfresh : (mg.app_label, mg.name) ∉ P.map fun m => (m.app_label, m.name) := by
      rw [hmap] at hnd
      have h2 := List.nodup_middle.mp hnd
      have h3 := (List.nodup_cons.mp h2).1
      intro hmem
      exact h3 (List.mem_append_left _ hmem)
    have hInv' := detectStep_inv P mg st hInv hfresh
    have hnd' : (((P ++ [mg]) ++ rest').map fun m => (m.app_label, m.name)).Nodup := by
      rw [List.append_assoc]
      simpa using hnd
    have := ih (P ++ [mg]) (detectStep st mg) hInv' hnd'
    rw [List.append_assoc] at this
    simpa using this

theorem detect_state_inv (migrations : List Migration)
    (hnd : (migrations.map fun m => (m.app_label, m.name)).Nodup) :
    DetectInv migrations (detect_state migrations) := by
  have hbase : DetectInv [] (⟨[], []⟩ : DetectState) := by
    constructor
    · intro k
      simp [pyLookup, touchNames, touchers]
    · intro k
      simp [touchers]
  have := detect_fold_inv migrations [] ⟨[], []⟩ hbase (by simpa using hnd)
  simpa [detect_state] using this

/-! ### Characterisation of the dict returned by `detect_conflicts` -/

theorem detect_conflicts_lookup (self : ModelDetectConflictStrategy)
    (graph : MigrationGraph) (a : String) :
    pyLookup (self.detect_conflicts graph) a =
      (((detect_state (leafMigrations self graph)).conflicting_models.filter
          fun m => decide (m.1 = a)).getLast?).map
        fun m =>
          (pyLookup (detect_state (leafMigrations self graph)).seen_models m).getD [] := by
  have h0 : self.detect_conflicts graph =
      (detect_state (leafMigrations self graph)).conflicting_models.foldl
        (fun d model => pyAssign d model.1
          ((pyLookup (detect_state (leafMigrations self graph)).seen_models model).getD []))
        [] := rfl
  rw [h0]
  have h1 : (detect_state (leafMigrations self graph)).conflicting_models.foldl
      (fun d model => pyAssign d model.1
        ((pyLookup (detect_state (leafMigrations self graph)).seen_models model).getD []))
      [] =
      ((detect_state (leafMigrations self graph)).conflicting_models.map fun m =>
        (m.1, (pyLookup (detect_state (leafMigrations self graph)).seen_models m).getD [])).foldl
        (fun d e => pyAssign d e.1 e.2) [] := by
    rw [List.foldl_map]
  rw [h1, pyLookup_foldl_pyAssign]
  have h2 : (((detect_state (leafMigrations self graph)).conflicting_models.map fun m =>
      (m.1, (pyLookup (detect_state (leafMigrations self graph)).seen_models m).getD [])).filter
      fun e => decide (e.1 = a)) =
      ((detect_state (leafMigrations self graph)).conflicting_models.filter
        fun m => decide (m.1 = a)).map
        fun m =>
          (m.1, (pyLookup (detect_state (leafMigrations self graph)).seen_models m).getD []) := by
    rw [List.filter_map]
    rfl
  rw [h2, List.getLast?_map]
  cases ((detect_state (leafMigrations self graph)).conflicting_models.filter
      fun m => decide (m.1 = a)).getLast? <;> rfl

/-- The migrations fed to `detect_conflicts` carry the `(app_label, name)` of
their leaf node. -/
theorem leafMigrations_keys (self : ModelDetectConflictStrategy)
    (graph : MigrationGraph)
    (hkey : ∀ p ∈ graph.leaf_nodes,
      ((self.loader.get_migration p.1 p.2).app_label,
        (self.loader.get_migration p.1 p.2).name) = p) :
    (leafMigrations self graph).map (fun m => (m.app_label, m.name)) =
      graph.leaf_nodes := by
  unfold leafMigrations
  rw [List.map_map]
  have h : ∀ p ∈ graph.leaf_nodes,
      (((fun m : Migration => (m.app_label, m.name)) ∘
        fun p : MModel => self.loader.get_migration p.1 p.2) p) = id p := by
    intro p hp
    exact hkey p hp
  rw [List.map_congr_left h, List.map_id]

/-- The (amended) specification of `ModelDetectConflictStrategy.detect_conflicts`:
(1) a model is flagged as conflicting iff at least two leaf migrations change
it; (2) an app label has an entry in the returned dict iff one of its models
is conflicting; (3) every entry value is the set of names of the leaf
migrations that changed one of that app's conflicting models; (4) when an app
has exactly one conflicting model its entry is exactly the name set of the
leaf migrations that changed that model; (5) the dict is empty when nothing
conflicts. -/
def DetectConflictsSpec (self : ModelDetectConflictStrategy)
    (graph : MigrationGraph) : Prop :=
  (∀ model, model ∈ (detect_state (leafMigrations self graph)).conflicting_models ↔
      2 ≤ (touchers (leafMigrations self graph) model).length)
  ∧ (∀ a, (pyLookup (self.detect_conflicts graph) a).isSome ↔
      ∃ n, (a, n) ∈ (detect_state (leafMigrations self graph)).conflicting_models)
  ∧ (∀ a v, pyLookup (self.detect_conflicts graph) a = some v →
      ∃ n, (a, n) ∈ (detect_state (leafMigrations self graph)).conflicting_models ∧
        v = touchNames (leafMigrations self graph) (a, n))
  ∧ (∀ a n, (a, n) ∈ (detect_state (leafMigrations self graph)).conflicting_models →
      (∀ n2, (a, n2) ∈ (detect_state (leafMigrations self graph)).conflicting_models →
        n2 = n) →
      pyLookup (self.detect_conflicts graph) a =
        some (touchNames (leafMigrations self graph) (a, n)))
  ∧ ((detect_state (leafMigrations self graph)).conflicting_models = [] →
      self.detect_conflicts graph = [])

/-- **C1** (amended): `detect_conflicts` flags a model as conflicting if and
only if the model is changed by at least two of the (pairwise distinct) leaf
migrations, and the returned dict is as described by `DetectConflictsSpec`:
one entry per app label owning a conflicting model, whose value is the name
set of the leaf migrations that changed one of that app's conflicting models
(exactly the flagged model's name set whenever the app has a single
conflicting model), and the empty dict when nothing conflicts. -/
theorem detect_conflicts_model_level (self : ModelDetectConflictStrategy)
    (graph : MigrationGraph)
    (hkey : ∀ p ∈ graph.leaf_nodes,
      ((self.loader.get_migration p.1 p.2).app_label,
        (self.loader.get_migration p.1 p.2).name) = p)
    (hnd : graph.leaf_nodes.Nodup) :
    DetectConflictsSpec self graph := by
  have hkeys := leafMigrations_keys self graph hkey
  have hnd2 : ((leafMigrations self graph).map fun m => (m.app_label, m.name)).Nodup := by
    rw [hkeys]
    exact hnd
  obtain ⟨hseen, hconf⟩ := detect_state_inv (leafMigrations self graph) hnd2
  have hcs : ∀ model ∈ (detect_state (leafMigrations self graph)).conflicting_models,
      (pyLookup (detect_state (leafMigrations self graph)).seen_models model).getD [] =
        touchNames (leafMigrations self graph) model := by
    intro model hm
    have h2 := (hconf model).mp hm
    have hnz : ¬ touchNames (leafMigrations self graph) model = [] := by
      rw [touchNames_eq_nil]
      omega
    rw [hseen model, if_neg hnz]
    rfl
  refine ⟨hconf, ?_, ?_, ?_, ?_⟩
  · intro a
    rw [detect_conflicts_lookup, Option.isSome_map']
    simp only [List.getLast?_isSome]
    constructor
    · intro h
      rcases List.exists_cons_of_ne_nil h with ⟨m, t, hmt⟩
      have hmem : m ∈ (detect_state (leafMigrations self graph)).conflicting_models.filter
          (fun m => decide (m.1 = a)) := by
        rw [hmt]
        exact List.mem_cons_self m t
      obtain ⟨hmc, hdec⟩ := List.mem_filter.mp hmem
      have ha : m.1 = a := of_decide_eq_true hdec
      have hm2 : m = (a, m.2) := by rw [← ha]
      exact ⟨m.2, hm2 ▸ hmc⟩
    · rintro ⟨n, hn⟩ hnil
      rw [List.filter_eq_nil_iff] at hnil
      exact hnil (a, n) hn (by simp)
  · intro a v hv
    rw [detect_conflicts_lookup] at hv
    obtain ⟨m, hm, hfm⟩ := Option.map_eq_some'.mp hv
    have hmem := List.mem_of_getLast?_eq_some hm
    obtain ⟨hmc, hdec⟩ := List.mem_filter.mp hmem
    have ha : m.1 = a := of_decide_eq_true hdec
    have hm2 : m = (a, m.2) := by rw [← ha]
    refine ⟨m.2, hm2 ▸ hmc, ?_⟩
    rw [← hm2, ← hfm, hcs m hmc]
  · intro a n hn huniq
    rw [detect_conflicts_lookup]
    have hmemf : (a, n) ∈ (detect_state (leafMigrations self graph)).conflicting_models.filter
        (fun m => decide (m.1 = a)) := List.mem_filter.mpr ⟨hn, by simp⟩
    have hne : (detect_state (leafMigrations self graph)).conflicting_models.filter
        (fun m => decide (m.1 = a)) ≠ [] := by
      intro hnil
      rw [hnil] at hmemf
      simp at hmemf
    have hys : ((detect_state (leafMigrations self graph)).conflicting_models.filter
        (fun m => decide (m.1 = a))).getLast?.isSome = true := by
      simp only [List.getLast?_isSome]
      exact hne
    obtain ⟨y, hy⟩ := Option.isSome_iff_exists.mp hys
    have hymem := List.mem_of_getLast?_eq_some hy
    obtain ⟨hyc, hydec⟩ := List.mem_filter.mp hymem
    have hya : y.1 = a := of_decide_eq_true hydec
    have hy2 : y = (a, y.2) := by rw [← hya]
    have hyn : y.2 = n := huniq y.2 (hy2 ▸ hyc)
    have hyan : y = (a, n) := by rw [hy2, hyn]
    rw [hy, Option.map_some', hcs y hyc, hyan]
  · intro h
    have h0 : self.detect_conflicts graph =
        (detect_state (leafMigrations self graph)).conflicting_models.foldl
          (fun d model => pyAssign d model.1
            ((pyLookup (detect_state (leafMigrations self graph)).seen_models model).getD []))
          [] := rfl
    rw [h0, h, List.foldl_nil]

/-! ### A concrete migration graph for `detect_conflicts` -/

/-- Leaf migration `a/0001_one`, changing model `x`. -/
def c1mig1 : Migration := ⟨"a", "0001_one", [.modelOp "x"]⟩

/-- Leaf migration `a/0002_two`, changing models `x` and `y`. -/
def c1mig2 : Migration := ⟨"a", "0002_two", [.modelOp "x", .modelOp "y"]⟩

/-- Leaf migration `a/0003_three`, changing model `y`. -/
def c1mig3 : Migration := ⟨"a", "0003_three", [.modelOp "y"]⟩

/-- A graph whose three nodes are all leaves. -/
def c1graph : MigrationGraph :=
  ⟨[(("a", "0001_one"), c1mig1), (("a", "0002_two"), c1mig2),
    (("a", "0003_three"), c1mig3)],
   [("a", "0001_one"), ("a", "0002_two"), ("a", "0003_three")]⟩

/-- The strategy over a loader holding `c1graph`. -/
def c1strategy : ModelDetectConflictStrategy := ⟨⟨c1graph⟩⟩

/-- **C1, counterexample to the claim as stated.**  Model `("a", "x")` is
changed by the two distinct leaf migrations `0001_one` and `0002_two`, so it
is flagged as conflicting, and the claim then requires the returned dict to
map `"a"` to `{"0001_one", "0002_two"}`; the code instead returns
`{"a": {"0002_two", "0003_three"}}` (the name set of the other conflicting
model `("a", "y")`, which overwrote the entry for `("a", "x")` in the dict
comprehension, both models sharing the app label `"a"`). -/
theorem detect_conflicts_claim_counterexample :
    ("a", "x") ∈ (detect_state (leafMigrations c1strategy c1graph)).conflicting_models
    ∧ touchNames (leafMigrations c1strategy c1graph) ("a", "x") =
        ["0001_one", "0002_two"]
    ∧ pyLookup (c1strategy.detect_conflicts c1graph) "a" =
        some ["0002_two", "0003_three"]
    ∧ (["0002_two", "0003_three"] : List String) ≠ ["0001_one", "0002_two"] := by
  decide

/-- Witness for the amended C1 theorem: its hypotheses hold for `c1graph`
(whose leaf nodes are pairwise distinct and resolve to migrations carrying
the node's app label and name), and the specification follows by applying
the theorem there. -/
theorem detect_conflicts_model_level_witness :
    ((∀ p ∈ c1graph.leaf_nodes,
        ((c1strategy.loader.get_migration p.1 p.2).app_label,
          (c1strategy.loader.get_migration p.1 p.2).name) = p)
      ∧ c1graph.leaf_nodes.Nodup)
    ∧ DetectConflictsSpec c1strategy c1graph :=
  ⟨⟨by decide, by decide⟩,
    detect_conflicts_model_level c1strategy c1graph (by decide) (by decide)⟩

/-! ### The manifest writer (`write_manifest_file`) -/

/-- The strings yielded by `ModelDetectConflictStrategy._manifest_header`,
copied verbatim (trailing spaces included). -/
def _manifest_header : List String :=
  ["---------------------------------------------------------------------",
   " You should NEVER change this file by hand or it will break things   ",
   "                                                                     ",
   " This is a manifest file that is automatically created after running ",
   " the makemigrations command. The manifest describes the models that  ",
   " have been migrated and the latest migration that touched that model ",
   "                                                                     ",
   " If you get a conflict, it means that you and another person changed ",
   " the same model, and one of you will have to redo your migration in  ",
   " order to resolve the conflict.                                      ",
   "---------------------------------------------------------------------",
   ""]

/-- The key of the i-th header line: a two-digit zero-padded index after
`_H` (all twelve indices here are below 100, so padding to two digits is a
single leading zero below ten). -/
def _header_key (i : Nat) : String :=
  "_H" ++ (if i < 10 then "0" ++ toString i else toString i)

/-- The header part of the manifest: one pair per enumerated header line. -/
def header_pairs : List (String × String) :=
  _manifest_header.enum.map fun p => (_header_key p.1, p.2)

/-- The sort key of `_get_sorted_nodes`:
`(app_labels.index(app_label), migration_name)` of a graph node
`((app_label, migration_name), migration)`.  Python `list.index` raises
`ValueError` when the label is absent; the theorems below assume every node
label is installed, where `List.indexOf` agrees with `list.index`. -/
def _sort_node_key (app_labels : List String)
    (node : (String × String) × Migration) : Nat × String :=
  (app_labels.indexOf node.1.1, node.1.2)

/-- Comparison of sort keys, as Python compares `(int, str)` tuples. -/
def keyLe (k1 k2 : Nat × String) : Prop :=
  k1.1 < k2.1 ∨ (k1.1 = k2.1 ∧ k1.2 ≤ k2.2)

/-- Strict comparison of sort keys. -/
def keyLt (k1 k2 : Nat × String) : Prop :=
  k1.1 < k2.1 ∨ (k1.1 = k2.1 ∧ k1.2 < k2.2)

instance (k1 k2 : Nat × String) : Decidable (keyLe k1 k2) :=
  inferInstanceAs (Decidable (_ ∨ _))

instance (k1 k2 : Nat × String) : Decidable (keyLt k1 k2) :=
  inferInstanceAs (Decidable (_ ∨ _))

/-- Node ordering used by `_get_sorted_nodes`. -/
def nodeLe (app_labels : List String)
    (n1 n2 : (String × String) × Migration) : Prop :=
  keyLe (_sort_node_key app_labels n1) (_sort_node_key app_labels n2)

/-- Strict node ordering. -/
def nodeLt (app_labels : List String)
    (n1 n2 : (String × String) × Migration) : Prop :=
  keyLt (_sort_node_key app_labels n1) (_sort_node_key app_labels n2)

instance (app_labels : List String) : DecidableRel (nodeLe app_labels) :=
  fun _ _ => inferInstanceAs (Decidable (keyLe _ _))

instance (app_labels : List String) : DecidableRel (nodeLt app_labels) :=
  fun _ _ => inferInstanceAs (Decidable (keyLt _ _))

/-- `ModelDetectConflictStrategy._get_sorted_nodes`:
`sorted(self.loader.graph.nodes.items(), key=_sort_node_key)`.  Both this
insertion sort and CPython sorted are stable, and under the nodup-keys
hypotheses used below the sorted list is unique anyway. -/
def _get_sorted_nodes (app_labels : List String)
    (nodes : List ((String × String) × Migration)) :
    List ((String × String) × Migration) :=
  List.insertionSort (nodeLe app_labels) nodes

/-- The loop of `write_manifest_file` that builds `model_migration_map`: for
each sorted node, `model_migration_map[model] = migration_name` for every
model changed by its migration (the assigned name being the node key name). -/
def model_migration_map (app_labels : List String)
    (nodes : List ((String × String) × Migration)) : List (MModel × String) :=
  (_get_sorted_nodes app_labels nodes).foldl
    (fun m node =>
      (_find_models_changed node.2).foldl
        (fun m model => pyAssign m model node.1.2) m)
    []

/-- `_model_migration_map_item_key`:
`(app_labels.index(app_label), model_name)` of an item
`((app_label, model_name), migration_name)`. -/
def _model_migration_map_item_key (app_labels : List String)
    (item : MModel × String) : Nat × String :=
  (app_labels.indexOf item.1.1, item.1.2)

/-- Item ordering used to sort `model_migration_map.items()`. -/
def itemLe (app_labels : List String) (i1 i2 : MModel × String) : Prop :=
  keyLe (_model_migration_map_item_key app_labels i1)
    (_model_migration_map_item_key app_labels i2)

/-- Strict item ordering. -/
def itemLt (app_labels : List String) (i1 i2 : MModel × String) : Prop :=
  keyLt (_model_migration_map_item_key app_labels i1)
    (_model_migration_map_item_key app_labels i2)

instance (app_labels : List String) : DecidableRel (itemLe app_labels) :=
  fun _ _ => inferInstanceAs (Decidable (keyLe _ _))

/-- `sorted(model_migration_map.items(), key=_model_migration_map_item_key)`
(the `.items()` of the dict model is the association list itself, in
insertion order). -/
def model_migration_map_items (app_labels : List String)
    (nodes : List ((String × String) × Migration)) : List (MModel × String) :=
  List.insertionSort (itemLe app_labels) (model_migration_map app_labels nodes)

/-- `model_changes`: the sorted items formatted as
`("app_label.model_name", migration_name)`. -/
def model_changes (app_labels : List String)
    (nodes : List ((String × String) × Migration)) : List (String × String) :=
  (model_migration_map_items app_labels nodes).map
    fun e => (e.1.1 ++ "." ++ e.1.2, e.2)

/-- `OrderedDict(header + model_changes)`: duplicate keys keep their first
position and take the last value, which is exactly what folding `pyAssign`
does. -/
def manifest_pairs (app_labels : List String)
    (nodes : List ((String × String) × Migration)) : List (String × String) :=
  (header_pairs ++ model_changes app_labels nodes).foldl
    (fun d e => pyAssign d e.1 e.2) []

/-! ### `json.dump(manifest, fp, indent=4, ensure_ascii=True)` -/

/-- Lower-case hexadecimal digit. -/
def hexDigit (n : Nat) : Char :=
  "0123456789abcdef".toList.getD n '0'

/-- Four-digit lower-case hexadecimal rendering of `n < 0x10000`. -/
def hex4 (n : Nat) : String :=
  String.mk [hexDigit (n / 4096 % 16), hexDigit (n / 256 % 16),
    hexDigit (n / 16 % 16), hexDigit (n % 16)]

/-- How `json.dump` with `ensure_ascii=True` escapes one character: the named
escapes for quote, backslash and the common control characters, then
`\uXXXX` (a surrogate pair above `U+FFFF`) for anything else outside
printable ASCII (outside `0x20`..`0x7e`). -/
def jsonEscapeChar (c : Char) : String :=
  if c = '"' then "\\\""
  else if c = '\\' then "\\\\"
  else if c = '\n' then "\\n"
  else if c = '\r' then "\\r"
  else if c = '\t' then "\\t"
  else if c = Char.ofNat 8 then "\\b"
  else if c = Char.ofNat 12 then "\\f"
  else if c.toNat < 32 ∨ 126 < c.toNat then
    if c.toNat < 65536 then "\\u" ++ hex4 c.toNat
    else
      "\\u" ++ hex4 (55296 + (c.toNat - 65536) / 1024) ++
        "\\u" ++ hex4 (56320 + (c.toNat - 65536) % 1024)
  else String.singleton c

/-- A JSON string literal. -/
def jsonQuote (s : String) : String :=
  "\"" ++ String.join (s.toList.map jsonEscapeChar) ++ "\""

/-- The serialization of a string-to-string JSON object with `indent=4` and
the default separators: each pair on its own four-space-indented line,
commas between pairs. -/
def renderManifest (pairs : List (String × String)) : String :=
  match pairs with
  | [] => "\x7b\x7d"
  | _ =>
    "\x7b" ++ String.intercalate ","
      (pairs.map fun e => "\n    " ++ jsonQuote e.1 ++ ": " ++ jsonQuote e.2) ++
      "\n\x7d"

/-- `ModelDetectConflictStrategy.write_manifest_file`, returning the content
written to the manifest file.  The `changes` argument is in the signature
but never read, as in the source. -/
def ModelDetectConflictStrategy.write_manifest_file {α : Type}
    (self : ModelDetectConflictStrategy) (changes : α)
    (app_labels : List String) : String :=
  renderManifest (manifest_pairs app_labels self.loader.graph.nodes)

/-- `utils.write_manifest(changes, strategy)`: delegates to the strategy's
`write_manifest_file` (when no strategy is passed the real code builds a
loader and resolves the configured strategy; here the strategy is passed
explicitly). -/
def write_manifest {α : Type} (changes : α)
    (strategy : ModelDetectConflictStrategy) (app_labels : List String) :
    String :=
  strategy.write_manifest_file changes app_labels

/-! ### Order lemmas for the sort keys -/

theorem keyLe_refl (k : Nat × String) : keyLe k k :=
  Or.inr ⟨rfl, le_refl _⟩

theorem keyLe_trans {k1 k2 k3 : Nat × String} (h1 : keyLe k1 k2)
    (h2 : keyLe k2 k3) : keyLe k1 k3 := by
  rcases h1 with h1 | ⟨h1e, h1s⟩
  · rcases h2 with h2 | ⟨h2e, _⟩
    · exact Or.inl (Nat.lt_trans h1 h2)
    · exact Or.inl (h2e ▸ h1)
  · rcases h2 with h2 | ⟨h2e, h2s⟩
    · exact Or.inl (h1e ▸ h2)
    · exact Or.inr ⟨h1e.trans h2e, le_trans h1s h2s⟩

theorem keyLe_total (k1 k2 : Nat × String) : keyLe k1 k2 ∨ keyLe k2 k1 := by
  rcases Nat.lt_trichotomy k1.1 k2.1 with h | h | h
  · exact Or.inl (Or.inl h)
  · rcases le_total k1.2 k2.2 with hs | hs
    · exact Or.inl (Or.inr ⟨h, hs⟩)
    · exact Or.inr (Or.inr ⟨h.symm, hs⟩)
  · exact Or.inr (Or.inl h)

theorem keyLe_antisymm {k1 k2 : Nat × String} (h1 : keyLe k1 k2)
    (h2 : keyLe k2 k1) : k1 = k2 := by
  rcases h1 with h1 | ⟨h1e, h1s⟩
  · rcases h2 with h2 | ⟨h2e, _⟩
    · exact absurd h2 (Nat.lt_asymm h1)
    · exact absurd (h2e ▸ h1) (lt_irrefl _)
  · rcases h2 with h2 | ⟨h2e, h2s⟩
    · exact absurd (h1e ▸ h2) (lt_irrefl _)
    · exact Prod.ext h1e (le_antisymm h1s h2s)

theorem keyLt_of_keyLe_of_ne {k1 k2 : Nat × String} (h : keyLe k1 k2)
    (hne : k1 ≠ k2) : keyLt k1 k2 := by
  rcases h with h | ⟨he, hs⟩
  · exact Or.inl h
  · refine Or.inr ⟨he, lt_of_le_of_ne hs fun hss => hne ?_⟩
    exact Prod.ext he hss

theorem keyLt_asymm {k1 k2 : Nat × String} (h1 : keyLt k1 k2)
    (h2 : keyLt k2 k1) : False := by
  rcases h1 with h1 | ⟨h1e, h1s⟩
  · rcases h2 with h2 | ⟨h2e, _⟩
    · exact Nat.lt_asymm h1 h2
    · exact absurd (h2e ▸ h1) (lt_irrefl _)
  · rcases h2 with h2 | ⟨h2e, h2s⟩
    · exact absurd (h1e ▸ h2) (lt_irrefl _)
    · exact absurd h2s (not_lt_of_gt h1s)

instance (app_labels : List String) :
    IsTotal ((String × String) × Migration) (nodeLe app_labels) :=
  ⟨fun n1 n2 => keyLe_total _ _⟩

instance (app_labels : List String) :
    IsTrans ((String × String) × Migration) (nodeLe app_labels) :=
  ⟨fun _ _ _ h1 h2 => keyLe_trans h1 h2⟩

instance (app_labels : List String) :
    IsAntisymm ((String × String) × Migration) (nodeLt app_labels) :=
  ⟨fun _ _ h1 h2 => absurd h2 fun h2 => keyLt_asymm h1 h2⟩

instance (app_labels : List String) :
    IsTotal (MModel × String) (itemLe app_labels) :=
  ⟨fun _ _ => keyLe_total _ _⟩

instance (app_labels : List String) :
    IsTrans (MModel × String) (itemLe app_labels) :=
  ⟨fun _ _ _ h1 h2 => keyLe_trans h1 h2⟩

/-! ### Keys of `pyAssign` folds -/

theorem pyLookup_eq_none_iff {κ α : Type} [DecidableEq κ]
    (d : List (κ × α)) (k : κ) :
    pyLookup d k = none ↔ k ∉ d.map Prod.fst := by
  induction d with
  | nil => simp [pyLookup]
  | cons e rest ih =>
    by_cases he : e.1 = k
    · simp [pyLookup, he]
    · simp only [pyLookup, if_neg he, List.map_cons, List.mem_cons]
      rw [ih]
      constructor
      · intro h hk
        rcases hk with hk | hk
        · exact he hk.symm
        · exact h hk
      · intro h hk
        exact h (Or.inr hk)

theorem pyAssign_of_not_mem {κ α : Type} [DecidableEq κ]
    {d : List (κ × α)} {k : κ} (v : α) (h : k ∉ d.map Prod.fst) :
    pyAssign d k v = d ++ [(k, v)] := by
  induction d with
  | nil => rfl
  | cons e rest ih =>
    simp only [List.map_cons, List.mem_cons, not_or] at h
    have he : ¬ e.1 = k := fun hh => h.1 hh.symm
    simp only [pyAssign, if_neg he, List.cons_append]
    rw [ih h.2]

theorem foldl_pyAssign_of_nodup {κ α : Type} [DecidableEq κ] :
    ∀ (l d : List (κ × α)),
      ((d ++ l).map Prod.fst).Nodup →
      l.foldl (fun d e => pyAssign d e.1 e.2) d = d ++ l := by
  intro l
  induction l with
  | nil => intro d _; simp
  | cons e rest ih =>
    intro d hnd
    rw [List.foldl_cons]
    have hmem : e.1 ∉ d.map Prod.fst := by
      intro hm
      rw [List.map_append] at hnd
      obtain ⟨x, hx, hx1⟩ := List.mem_map.mp hm
      have h1 := (List.nodup_append.mp hnd).2.2
      exact h1 hm (by simp)
    rw [pyAssign_of_not_mem e.2 hmem]
    have hnd2 : (((d ++ [e]) ++ rest).map Prod.fst).Nodup := by
      rw [List.append_assoc]
      simpa using hnd
    have := ih (d ++ [(e.1, e.2)]) (by simpa using hnd2)
    rw [this]
    simp

theorem pyAssign_map_fst {κ α : Type} [DecidableEq κ]
    (d : List (κ × α)) (k : κ) (v : α) :
    (pyAssign d k v).map Prod.fst =
      if k ∈ d.map Prod.fst then d.map Prod.fst else d.map Prod.fst ++ [k] := by
  induction d with
  | nil => simp [pyAssign]
  | cons e rest ih =>
    by_cases he : e.1 = k
    · simp [pyAssign, he]
    · have hne : ¬ k = e.1 := fun h => he h.symm
      simp only [pyAssign, if_neg he, List.map_cons, ih, List.mem_cons]
      by_cases hk : k ∈ rest.map Prod.fst
      · simp [hk, hne]
      · simp [hk, hne]

theorem pyAssign_keys_nodup {κ α : Type} [DecidableEq κ]
    {d : List (κ × α)} (hnd : (d.map Prod.fst).Nodup) (k : κ) (v : α) :
    ((pyAssign d k v).map Prod.fst).Nodup := by
  rw [pyAssign_map_fst]
  by_cases hk : k ∈ d.map Prod.fst
  · simpa [hk]
  · simp only [hk, if_neg]
    simp [List.nodup_append, hnd, hk]

theorem pyLookup_eq_some_of_mem {κ α : Type} [DecidableEq κ] :
    ∀ {d : List (κ × α)}, (d.map Prod.fst).Nodup → ∀ {e : κ × α}, e ∈ d →
      pyLookup d e.1 = some e.2 := by
  intro d
  induction d with
  | nil => intro _ e he; simp at he
  | cons x rest ih =>
    intro hnd e he
    have hnd2 : x.1 ∉ rest.map Prod.fst ∧ (rest.map Prod.fst).Nodup := by
      rw [List.map_cons, List.nodup_cons] at hnd
      exact hnd
    rcases List.mem_cons.mp he with rfl | he
    · simp [pyLookup]
    · have hx : ¬ x.1 = e.1 := by
        intro hh
        exact hnd2.1 (hh ▸ List.mem_map.mpr ⟨e, he, rfl⟩)
      simp only [pyLookup, if_neg hx]
      exact ih hnd2.2 he

theorem mem_of_pyLookup_eq_some {κ α : Type} [DecidableEq κ] :
    ∀ {d : List (κ × α)} {k : κ} {v : α}, pyLookup d k = some v → (k, v) ∈ d := by
  intro d
  induction d with
  | nil => intro k v h; simp [pyLookup] at h
  | cons x rest ih =>
    intro k v h
    simp only [pyLookup] at h
    by_cases hx : x.1 = k
    · rw [if_pos hx] at h
      cases h
      have hx2 : (k, x.2) = x := by rw [← hx]
      rw [hx2]
      exact List.mem_cons_self x rest
    · rw [if_neg hx] at h
      exact List.mem_cons_of_mem _ (ih h)

/-! ### Lookup in `model_migration_map` -/

theorem inner_assign_lookup :
    ∀ (models : List MModel) (v : String) (d : List (MModel × String))
      (k : MModel),
      pyLookup (models.foldl (fun m model => pyAssign m model v) d) k =
        if k ∈ models then some v else pyLookup d k := by
  intro models
  induction models with
  | nil => intro v d k; simp
  | cons m rest ih =>
    intro v d k
    rw [List.foldl_cons, ih]
    by_cases hk : k ∈ rest
    · simp [hk]
    · by_cases hkm : k = m
      · subst hkm
        simp [hk, pyLookup_pyAssign_self]
      · have : ¬ m = k := fun h => hkm h.symm
        simp [hk, hkm, pyLookup_pyAssign_ne d m v k this]

theorem inner_assign_keys_nodup :
    ∀ (models : List MModel) (v : String) {d : List (MModel × String)},
      (d.map Prod.fst).Nodup →
      ((models.foldl (fun m model => pyAssign m model v) d).map Prod.fst).Nodup := by
  intro models
  induction models with
  | nil => intro v d h; simpa using h
  | cons m rest ih =>
    intro v d h
    rw [List.foldl_cons]
    exact ih v (pyAssign_keys_nodup h m v)

/-- One outer step of the `model_migration_map` loop. -/
def mmmStep (m : List (MModel × String))
    (node : (String × String) × Migration) : List (MModel × String) :=
  (_find_models_changed node.2).foldl
    (fun m model => pyAssign m model node.1.2) m

theorem mmm_fold_lookup :
    ∀ (ns : List ((String × String) × Migration))
      (d : List (MModel × String)) (k : MModel),
      pyLookup (ns.foldl mmmStep d) k =
        match (ns.filter fun node => decide (touches k node.2)).getLast? with
        | some node => some node.1.2
        | none => pyLookup d k := by
  intro ns
  induction ns with
  | nil => intro d k; simp
  | cons node rest ih =>
    intro d k
    rw [List.foldl_cons, ih]
    have hstep : pyLookup (mmmStep d node) k =
        if touches k node.2 then some node.1.2 else pyLookup d k := by
      unfold mmmStep
      rw [inner_assign_lookup]
      rfl
    by_cases ht : touches k node.2
    · rw [List.filter_cons_of_pos (by simpa using ht)]
      cases hr : (rest.filter fun node => decide (touches k node.2)).getLast? with
      | some n2 =>
        have hne : (rest.filter fun node => decide (touches k node.2)) ≠ [] := by
          intro h
          rw [h] at hr
          simp at hr
        obtain ⟨c, t, hct⟩ := List.exists_cons_of_ne_nil hne
        rw [hct] at hr ⊢
        simp only [List.getLast?_cons_cons, hr]
      | none =>
        have h0 : (rest.filter fun node => decide (touches k node.2)) = [] :=
          List.getLast?_eq_none_iff.mp hr
        rw [h0]
        simp only [List.getLast?_singleton]
        rw [hstep, if_pos ht]
    · rw [List.filter_cons_of_neg (by simpa using ht)]
      cases hr : (rest.filter fun node => decide (touches k node.2)).getLast? with
      | some n2 => rfl
      | none => rw [hstep, if_neg ht]

theorem mmm_fold_keys_nodup :
    ∀ (ns : List ((String × String) × Migration))
      {d : List (MModel × String)},
      (d.map Prod.fst).Nodup → ((ns.foldl mmmStep d).map Prod.fst).Nodup := by
  intro ns
  induction ns with
  | nil => intro d h; simpa using h
  | cons node rest ih =>
    intro d h
    rw [List.foldl_cons]
    exact ih (inner_assign_keys_nodup _ _ h)

theorem model_migration_map_lookup (app_labels : List String)
    (nodes : List ((String × String) × Migration)) (k : MModel) :
    pyLookup (model_migration_map app_labels nodes) k =
      (((_get_sorted_nodes app_labels nodes).filter
        fun node => decide (touches k node.2)).getLast?).map
        fun node => node.1.2 := by
  have h0 : model_migration_map app_labels nodes =
      (_get_sorted_nodes app_labels nodes).foldl mmmStep [] := rfl
  rw [h0, mmm_fold_lookup]
  cases ((_get_sorted_nodes app_labels nodes).filter
      fun node => decide (touches k node.2)).getLast? <;> rfl

theorem model_migration_map_keys_nodup (app_labels : List String)
    (nodes : List ((String × String) × Migration)) :
    ((model_migration_map app_labels nodes).map Prod.fst).Nodup := by
  have h0 : model_migration_map app_labels nodes =
      (_get_sorted_nodes app_labels nodes).foldl mmmStep [] := rfl
  rw [h0]
  exact mmm_fold_keys_nodup _ (by simp)

/-! ### Uniqueness of the sorted node list -/

theorem sort_node_key_nodup (app_labels : List String)
    {nodes : List ((String × String) × Migration)}
    (hnd : (nodes.map Prod.fst).Nodup)
    (happ : ∀ node ∈ nodes, node.1.1 ∈ app_labels) :
    (nodes.map (_sort_node_key app_labels)).Nodup := by
  have h1 : nodes.map (_sort_node_key app_labels) =
      (nodes.map Prod.fst).map fun p => (app_labels.indexOf p.1, p.2) := by
    rw [List.map_map]
    rfl
  rw [h1]
  refine List.Nodup.map_on ?_ hnd
  intro p hp q hq heq
  obtain ⟨np, hnp, hnp2⟩ := List.mem_map.mp hp
  obtain ⟨nq, hnq, hnq2⟩ := List.mem_map.mp hq
  have hp1 : p.1 ∈ app_labels := hnp2 ▸ happ np hnp
  have hq1 : q.1 ∈ app_labels := hnq2 ▸ happ nq hnq
  have h2 : app_labels.indexOf p.1 = app_labels.indexOf q.1 ∧ p.2 = q.2 := by
    rw [Prod.ext_iff] at heq
    exact heq
  exact Prod.ext ((List.indexOf_inj hp1 hq1).mp h2.1) h2.2

theorem sorted_nodeLt (app_labels : List String)
    {l : List ((String × String) × Migration)}
    (hs : l.Sorted (nodeLe app_labels))
    (hnd : (l.map (_sort_node_key app_labels)).Nodup) :
    l.Sorted (nodeLt app_labels) := by
  have hne : l.Pairwise fun n1 n2 =>
      _sort_node_key app_labels n1 ≠ _sort_node_key app_labels n2 := by
    exact List.pairwise_map.mp hnd
  exact (hs.and hne).imp fun h => keyLt_of_keyLe_of_ne h.1 h.2

theorem _get_sorted_nodes_perm (app_labels : List String)
    (nodes : List ((String × String) × Migration)) :
    List.Perm (_get_sorted_nodes app_labels nodes) nodes :=
  List.perm_insertionSort _ _

theorem _get_sorted_nodes_sorted (app_labels : List String)
    (nodes : List ((String × String) × Migration)) :
    (_get_sorted_nodes app_labels nodes).Sorted (nodeLe app_labels) :=
  List.sorted_insertionSort _ _

theorem _get_sorted_nodes_eq_of_perm (app_labels : List String)
    {nodes nodes' : List ((String × String) × Migration)}
    (hperm : List.Perm nodes nodes')
    (hnd : (nodes.map Prod.fst).Nodup)
    (happ : ∀ node ∈ nodes, node.1.1 ∈ app_labels) :
    _get_sorted_nodes app_labels nodes = _get_sorted_nodes app_labels nodes' := by
  have hkey : (nodes.map (_sort_node_key app_labels)).Nodup :=
    sort_node_key_nodup app_labels hnd happ
  have hkey1 : ((_get_sorted_nodes app_labels nodes).map
      (_sort_node_key app_labels)).Nodup :=
    (((_get_sorted_nodes_perm app_labels nodes).map _).nodup_iff).mpr hkey
  have hkey' : (nodes'.map (_sort_node_key app_labels)).Nodup :=
    ((hperm.map _).nodup_iff).mp hkey
  have hkey2 : ((_get_sorted_nodes app_labels nodes').map
      (_sort_node_key app_labels)).Nodup :=
    (((_get_sorted_nodes_perm app_labels nodes').map _).nodup_iff).mpr hkey'
  have hs1 := sorted_nodeLt app_labels
    (_get_sorted_nodes_sorted app_labels nodes) hkey1
  have hs2 := sorted_nodeLt app_labels
    (_get_sorted_nodes_sorted app_labels nodes') hkey2
  have hp : List.Perm (_get_sorted_nodes app_labels nodes)
      (_get_sorted_nodes app_labels nodes') :=
    ((_get_sorted_nodes_perm app_labels nodes).trans hperm).trans
      (_get_sorted_nodes_perm app_labels nodes').symm
  exact List.eq_of_perm_of_sorted hp hs1 hs2

/-- In a `Pairwise R` list, every element other than the last one is
`R`-related to the last one. -/
theorem pairwise_getLast {α : Type} {R : α → α → Prop} :
    ∀ {l : List α} {x : α}, l.Pairwise R → l.getLast? = some x →
      ∀ y ∈ l, y = x ∨ R y x := by
  intro l
  induction l with
  | nil => intro x _ h; simp at h
  | cons a t ih =>
    intro x hp hl y hy
    cases t with
    | nil =>
      simp only [List.getLast?_singleton, Option.some.injEq] at hl
      rcases List.mem_singleton.mp hy with rfl
      exact Or.inl hl
    | cons b t2 =>
      rw [List.getLast?_cons_cons] at hl
      rcases List.mem_cons.mp hy with rfl | hy2
      · exact Or.inr ((List.pairwise_cons.mp hp).1 x
          (List.mem_of_getLast?_eq_some hl))
      · exact ih (List.pairwise_cons.mp hp).2 hl y hy2

theorem model_migration_map_items_mem_iff (app_labels : List String)
    (nodes : List ((String × String) × Migration))
    (hnd : (nodes.map Prod.fst).Nodup)
    (happ : ∀ node ∈ nodes, node.1.1 ∈ app_labels)
    (a m n : String) :
    ((a, m), n) ∈ model_migration_map_items app_labels nodes ↔
      ∃ node, node ∈ nodes ∧ touches (a, m) node.2 ∧ node.1.2 = n ∧
        ∀ node2 ∈ nodes, touches (a, m) node2.2 →
          nodeLe app_labels node2 node := by
  have hpermI : List.Perm (model_migration_map_items app_labels nodes)
      (model_migration_map app_labels nodes) := List.perm_insertionSort _ _
  have hpermS : List.Perm (_get_sorted_nodes app_labels nodes) nodes :=
    _get_sorted_nodes_perm app_labels nodes
  have hndK := model_migration_map_keys_nodup app_labels nodes
  have hmemlk : ((a, m), n) ∈ model_migration_map app_labels nodes ↔
      pyLookup (model_migration_map app_labels nodes) (a, m) = some n := by
    constructor
    · intro h
      exact pyLookup_eq_some_of_mem hndK h
    · intro h
      exact mem_of_pyLookup_eq_some h
  have hF : (((_get_sorted_nodes app_labels nodes).filter
      fun node => decide (touches (a, m) node.2))).Pairwise
      (nodeLe app_labels) :=
    ((_get_sorted_nodes_sorted app_labels nodes).filter _)
  rw [hpermI.mem_iff, hmemlk, model_migration_map_lookup]
  rw [Option.map_eq_some']
  constructor
  · rintro ⟨node, hlast, hval⟩
    have hmemF := List.mem_of_getLast?_eq_some hlast
    obtain ⟨hmemS, hdec⟩ := List.mem_filter.mp hmemF
    have ht : touches (a, m) node.2 := of_decide_eq_true hdec
    refine ⟨node, hpermS.mem_iff.mp hmemS, ht, hval, ?_⟩
    intro node2 hn2 ht2
    have hmemF2 : node2 ∈ ((_get_sorted_nodes app_labels nodes).filter
        fun node => decide (touches (a, m) node.2)) :=
      List.mem_filter.mpr ⟨hpermS.mem_iff.mpr hn2, by simpa using ht2⟩
    rcases pairwise_getLast hF hlast node2 hmemF2 with rfl | hlt
    · exact Or.inr ⟨rfl, le_refl _⟩
    · exact hlt
  · rintro ⟨node, hnode, ht, hval, hmax⟩
    have hmemF : node ∈ ((_get_sorted_nodes app_labels nodes).filter
        fun node => decide (touches (a, m) node.2)) :=
      List.mem_filter.mpr ⟨hpermS.mem_iff.mpr hnode, by simpa using ht⟩
    have hne : ((_get_sorted_nodes app_labels nodes).filter
        fun node => decide (touches (a, m) node.2)) ≠ [] :=
      List.ne_nil_of_mem hmemF
    have hsome : (((_get_sorted_nodes app_labels nodes).filter
        fun node => decide (touches (a, m) node.2)).getLast?).isSome = true := by
      simp only [List.getLast?_isSome]
      exact hne
    obtain ⟨y, hy⟩ := Option.isSome_iff_exists.mp hsome
    have hymemF := List.mem_of_getLast?_eq_some hy
    obtain ⟨hymemS, hydec⟩ := List.mem_filter.mp hymemF
    have hyt : touches (a, m) y.2 := of_decide_eq_true hydec
    have hynodes : y ∈ nodes := hpermS.mem_iff.mp hymemS
    have h1 : nodeLe app_labels y node := hmax y hynodes hyt
    rcases pairwise_getLast hF hy node hmemF with rfl | h2
    · exact ⟨node, hy, hval⟩
    · have hkeq : _sort_node_key app_labels node = _sort_node_key app_labels y :=
        keyLe_antisymm h2 h1
      have heq : node = y :=
        List.inj_on_of_nodup_map (sort_node_key_nodup app_labels hnd happ)
          hnode hynodes hkeq
      exact ⟨node, heq ▸ hy, hval⟩

/-! ### Injectivity of the `"app_label.model"` key format -/

theorem append_cons_inj {α : Type} {c : α} :
    ∀ {l1 l2 r1 r2 : List α}, c ∉ l1 → c ∉ l2 →
      l1 ++ c :: r1 = l2 ++ c :: r2 → l1 = l2 ∧ r1 = r2 := by
  intro l1
  induction l1 with
  | nil =>
    intro l2 r1 r2 _ h2 heq
    cases l2 with
    | nil => simpa using heq
    | cons y t2 =>
      simp only [List.nil_append, List.cons_append, List.cons.injEq] at heq
      exact absurd (heq.1 ▸ List.mem_cons_self y t2) h2
  | cons x t ih =>
    intro l2 r1 r2 h1 h2 heq
    cases l2 with
    | nil =>
      simp only [List.cons_append, List.nil_append, List.cons.injEq] at heq
      exact absurd (heq.1 ▸ List.mem_cons_self x t) h1
    | cons y t2 =>
      simp only [List.cons_append, List.cons.injEq] at heq
      obtain ⟨rfl, heq2⟩ := heq
      have h1t : c ∉ t := fun hh => h1 (List.mem_cons_of_mem _ hh)
      have h2t : c ∉ t2 := fun hh => h2 (List.mem_cons_of_mem _ hh)
      obtain ⟨ht, hr⟩ := ih h1t h2t heq2
      exact ⟨by rw [ht], hr⟩

theorem dot_key_inj {a1 m1 a2 m2 : String}
    (h1 : ('.' : Char) ∉ a1.data) (h2 : ('.' : Char) ∉ a2.data)
    (h : a1 ++ "." ++ m1 = a2 ++ "." ++ m2) : a1 = a2 ∧ m1 = m2 := by
  have hd : a1.data ++ ('.' : Char) :: m1.data =
      a2.data ++ ('.' : Char) :: m2.data := by
    have h3 := congrArg String.data h
    simpa [String.data_append] using h3
  obtain ⟨hA, hM⟩ := append_cons_inj h1 h2 hd
  constructor
  · exact congrArg String.mk hA
  · exact congrArg String.mk hM

theorem dot_mem_key (a m : String) : ('.' : Char) ∈ (a ++ "." ++ m).data := by
  simp [String.data_append]

/-! ### The manifest is the header followed by the model changes -/

theorem model_migration_map_mem_app (app_labels : List String)
    (nodes : List ((String × String) × Migration))
    (hcons : ∀ node ∈ nodes, node.2.app_label = node.1.1) :
    ∀ e ∈ model_migration_map app_labels nodes,
      ∃ node ∈ nodes, e.1.1 = node.1.1 := by
  intro e he
  have hl := pyLookup_eq_some_of_mem
    (model_migration_map_keys_nodup app_labels nodes) he
  rw [model_migration_map_lookup] at hl
  obtain ⟨node, hlast, _⟩ := Option.map_eq_some'.mp hl
  have hmemF := List.mem_of_getLast?_eq_some hlast
  obtain ⟨hmemS, hdec⟩ := List.mem_filter.mp hmemF
  have hnodes : node ∈ nodes :=
    (_get_sorted_nodes_perm app_labels nodes).mem_iff.mp hmemS
  have ht : touches e.1 node.2 := of_decide_eq_true hdec
  exact ⟨node, hnodes, (touches_app ht).trans (hcons node hnodes)⟩

theorem model_changes_keys_nodup (app_labels : List String)
    (nodes : List ((String × String) × Migration))
    (hcons : ∀ node ∈ nodes, node.2.app_label = node.1.1)
    (happ : ∀ node ∈ nodes, node.1.1 ∈ app_labels)
    (hdot : ∀ lab ∈ app_labels, ('.' : Char) ∉ lab.data) :
    ((model_changes app_labels nodes).map Prod.fst).Nodup := by
  have hdotitems : ∀ e ∈ model_migration_map_items app_labels nodes,
      ('.' : Char) ∉ e.1.1.data := by
    intro e he
    have he2 : e ∈ model_migration_map app_labels nodes :=
      (List.perm_insertionSort _ _).mem_iff.mp he
    obtain ⟨node, hnode, hlab⟩ :=
      model_migration_map_mem_app app_labels nodes hcons e he2
    exact hdot e.1.1 (hlab ▸ happ node hnode)
  have hkeysI : ((model_migration_map_items app_labels nodes).map Prod.fst).Nodup := by
    have h1 : List.Perm ((model_migration_map_items app_labels nodes).map Prod.fst)
        ((model_migration_map app_labels nodes).map Prod.fst) :=
      (List.perm_insertionSort _ _).map _
    exact h1.nodup_iff.mpr (model_migration_map_keys_nodup app_labels nodes)
  have hndI : (model_migration_map_items app_labels nodes).Nodup :=
    hkeysI.of_map _
  have h2 : (model_changes app_labels nodes).map Prod.fst =
      (model_migration_map_items app_labels nodes).map
        fun e => e.1.1 ++ "." ++ e.1.2 := by
    unfold model_changes
    rw [List.map_map]
    rfl
  rw [h2]
  refine List.Nodup.map_on ?_ hndI
  intro e1 he1 e2 he2 heq
  obtain ⟨hA, hM⟩ := dot_key_inj (hdotitems e1 he1) (hdotitems e2 he2) heq
  have hk : e1.1 = e2.1 := Prod.ext hA hM
  exact List.inj_on_of_nodup_map hkeysI he1 he2 hk

theorem manifest_pairs_eq (app_labels : List String)
    (nodes : List ((String × String) × Migration))
    (hcons : ∀ node ∈ nodes, node.2.app_label = node.1.1)
    (happ : ∀ node ∈ nodes, node.1.1 ∈ app_labels)
    (hdot : ∀ lab ∈ app_labels, ('.' : Char) ∉ lab.data) :
    manifest_pairs app_labels nodes =
      header_pairs ++ model_changes app_labels nodes := by
  unfold manifest_pairs
  have h0 : (header_pairs ++ model_changes app_labels nodes) =
      ([] : List (String × String)) ++
        (header_pairs ++ model_changes app_labels nodes) := by simp
  have hnodup : ((([] : List (String × String)) ++
      (header_pairs ++ model_changes app_labels nodes)).map Prod.fst).Nodup := by
    simp only [List.nil_append, List.map_append]
    rw [List.nodup_append]
    refine ⟨by decide, model_changes_keys_nodup app_labels nodes hcons happ hdot, ?_⟩
    intro hk hmemh hmemm
    have hdotk : ('.' : Char) ∉ hk.data := by
      have hdothdr : ∀ k ∈ header_pairs.map Prod.fst, ('.' : Char) ∉ k.data := by
        decide
      exact hdothdr hk hmemh
    have h2 : (model_changes app_labels nodes).map Prod.fst =
        (model_migration_map_items app_labels nodes).map
          fun e => e.1.1 ++ "." ++ e.1.2 := by
      unfold model_changes
      rw [List.map_map]
      rfl
    rw [h2] at hmemm
    obtain ⟨e, _, hfe⟩ := List.mem_map.mp hmemm
    rw [← hfe] at hdotk
    exact hdotk (dot_mem_key e.1.1 e.1.2)
  have := foldl_pyAssign_of_nodup
    (header_pairs ++ model_changes app_labels nodes) [] hnodup
  simpa using this

theorem items_app_dotfree (app_labels : List String)
    (nodes : List ((String × String) × Migration))
    (hcons : ∀ node ∈ nodes, node.2.app_label = node.1.1)
    (happ : ∀ node ∈ nodes, node.1.1 ∈ app_labels)
    (hdot : ∀ lab ∈ app_labels, ('.' : Char) ∉ lab.data) :
    ∀ e ∈ model_migration_map_items app_labels nodes,
      ('.' : Char) ∉ e.1.1.data := by
  intro e he
  have he2 : e ∈ model_migration_map app_labels nodes :=
    (List.perm_insertionSort _ _).mem_iff.mp he
  obtain ⟨node, hnode, hlab⟩ :=
    model_migration_map_mem_app app_labels nodes hcons e he2
  exact hdot e.1.1 (hlab ▸ happ node hnode)

/-- The specification of `write_manifest_file`: the written content is the
rendering of the fixed header followed by the model changes, and a pair
`("app.model", name)` is a model entry exactly when `name` is the migration
name of the last graph node changing `(app, model)` in the order that sorts
nodes by `(position of the app in the installed apps, migration name)`. -/
def ManifestEntriesSpec {α : Type} (self : ModelDetectConflictStrategy)
    (changes : α) (app_labels : List String) : Prop :=
  (self.write_manifest_file changes app_labels =
    renderManifest
      (header_pairs ++ model_changes app_labels self.loader.graph.nodes))
  ∧ ∀ a m n : String, ('.' : Char) ∉ a.data →
      ((a ++ "." ++ m, n) ∈ model_changes app_labels self.loader.graph.nodes ↔
        ∃ node, node ∈ self.loader.graph.nodes ∧ touches (a, m) node.2 ∧
          node.1.2 = n ∧
          ∀ node2 ∈ self.loader.graph.nodes, touches (a, m) node2.2 →
            nodeLe app_labels node2 node)

/-- **C2**: `write_manifest_file` writes the fixed header followed by the
model entries, which are exactly the pairs `"app_label.model" ->
migration_name` with `migration_name` the name of the last node touching
that model, last in the order sorting graph nodes by the position of their
app in the installed-apps list and then by migration name. -/
theorem write_manifest_file_entries {α : Type}
    (self : ModelDetectConflictStrategy) (changes : α)
    (app_labels : List String)
    (hnd : (self.loader.graph.nodes.map Prod.fst).Nodup)
    (happ : ∀ node ∈ self.loader.graph.nodes, node.1.1 ∈ app_labels)
    (hcons : ∀ node ∈ self.loader.graph.nodes, node.2.app_label = node.1.1)
    (hdot : ∀ lab ∈ app_labels, ('.' : Char) ∉ lab.data) :
    ManifestEntriesSpec self changes app_labels := by
  constructor
  · show renderManifest (manifest_pairs app_labels self.loader.graph.nodes) = _
    rw [manifest_pairs_eq app_labels self.loader.graph.nodes hcons happ hdot]
  · intro a m n hadot
    have hiff := model_migration_map_items_mem_iff app_labels
      self.loader.graph.nodes hnd happ a m n
    constructor
    · intro h
      obtain ⟨e, he, hfe⟩ := List.mem_map.mp h
      rw [Prod.ext_iff] at hfe
      have hedot := items_app_dotfree app_labels self.loader.graph.nodes
        hcons happ hdot e he
      obtain ⟨hA, hM⟩ := dot_key_inj hedot hadot hfe.1
      have he2 : e = ((a, m), n) := by
        have h1 : e.1 = (a, m) := Prod.ext hA hM
        have h2 : e.2 = n := hfe.2
        exact Prod.ext h1 h2
      exact hiff.mp (he2 ▸ he)
    · intro h
      have hmem := hiff.mpr h
      exact List.mem_map.mpr ⟨((a, m), n), hmem, rfl⟩

/-- Installed apps of the concrete manifest example. -/
def c2apps : List String := ["a", "b"]

/-- Graph nodes of the concrete manifest example: two migrations of app `a`
touching overlapping models, one migration of app `b` with only a
non-model operation. -/
def c2nodes : List ((String × String) × Migration) :=
  [(("a", "0001_init"), ⟨"a", "0001_init", [.modelOp "m1"]⟩),
   (("a", "0002_more"), ⟨"a", "0002_more", [.modelOp "m1", .fieldOp "m2"]⟩),
   (("b", "0001_init"), ⟨"b", "0001_init", [.otherOp "runpython"]⟩)]

/-- A strategy whose loader graph holds `c2nodes` (no leaves needed for the
manifest). -/
def c2strategy : ModelDetectConflictStrategy := ⟨⟨c2nodes, []⟩⟩

/-- Witness for C2: the hypotheses hold for the concrete example and the
specification follows by applying the theorem there. -/
theorem write_manifest_file_entries_witness :
    ((c2strategy.loader.graph.nodes.map Prod.fst).Nodup
      ∧ (∀ node ∈ c2strategy.loader.graph.nodes, node.1.1 ∈ c2apps)
      ∧ (∀ node ∈ c2strategy.loader.graph.nodes, node.2.app_label = node.1.1)
      ∧ (∀ lab ∈ c2apps, ('.' : Char) ∉ lab.data))
    ∧ ManifestEntriesSpec c2strategy () c2apps :=
  ⟨⟨by decide, by decide, by decide, by decide⟩,
    write_manifest_file_entries c2strategy () c2apps
      (by decide) (by decide) (by decide) (by decide)⟩

/-- The determinism specification of the manifest writer: two calls over the
same graph nodes (in any enumeration order) and the same installed apps
write byte-for-byte identical content; that content is the rendering of the
fixed header followed by the model entries; and the model entries are sorted
by `(position of the app in the installed apps, model name)`. -/
def ManifestDeterministicSpec {α β : Type}
    (self1 self2 : ModelDetectConflictStrategy) (changes1 : α) (changes2 : β)
    (app_labels : List String) : Prop :=
  (self1.write_manifest_file changes1 app_labels =
    self2.write_manifest_file changes2 app_labels)
  ∧ (manifest_pairs app_labels self1.loader.graph.nodes =
      header_pairs ++ model_changes app_labels self1.loader.graph.nodes)
  ∧ (model_migration_map_items app_labels self1.loader.graph.nodes).Sorted
      (itemLe app_labels)

/-- **C3**: the manifest is deterministic.  For two loaders holding the same
graph nodes (as sets: one enumeration is a permutation of the other) and
the same installed-apps list, the written manifest content is byte-for-byte
identical whatever the `changes` arguments are; it is the fixed header
followed by the model entries, which are listed sorted by
`(position of the app in the installed apps, model name)`. -/
theorem write_manifest_file_deterministic {α β : Type}
    (self1 self2 : ModelDetectConflictStrategy) (changes1 : α) (changes2 : β)
    (app_labels : List String)
    (hperm : List.Perm self1.loader.graph.nodes self2.loader.graph.nodes)
    (hnd : (self1.loader.graph.nodes.map Prod.fst).Nodup)
    (happ : ∀ node ∈ self1.loader.graph.nodes, node.1.1 ∈ app_labels)
    (hcons : ∀ node ∈ self1.loader.graph.nodes, node.2.app_label = node.1.1)
    (hdot : ∀ lab ∈ app_labels, ('.' : Char) ∉ lab.data) :
    ManifestDeterministicSpec self1 self2 changes1 changes2 app_labels := by
  have hs : _get_sorted_nodes app_labels self1.loader.graph.nodes =
      _get_sorted_nodes app_labels self2.loader.graph.nodes :=
    _get_sorted_nodes_eq_of_perm app_labels hperm hnd happ
  have hm : model_migration_map app_labels self1.loader.graph.nodes =
      model_migration_map app_labels self2.loader.graph.nodes := by
    unfold model_migration_map
    rw [hs]
  have hi : model_migration_map_items app_labels self1.loader.graph.nodes =
      model_migration_map_items app_labels self2.loader.graph.nodes := by
    unfold model_migration_map_items
    rw [hm]
  have hc : model_changes app_labels self1.loader.graph.nodes =
      model_changes app_labels self2.loader.graph.nodes := by
    unfold model_changes
    rw [hi]
  have hp : manifest_pairs app_labels self1.loader.graph.nodes =
      manifest_pairs app_labels self2.loader.graph.nodes := by
    unfold manifest_pairs
    rw [hc]
  refine ⟨?_, ?_, ?_⟩
  · show renderManifest (manifest_pairs app_labels self1.loader.graph.nodes) =
      renderManifest (manifest_pairs app_labels self2.loader.graph.nodes)
    rw [hp]
  · exact manifest_pairs_eq app_labels self1.loader.graph.nodes hcons happ hdot
  · exact List.sorted_insertionSort _ _

/-- A permutation of `c2nodes`, as another loader might enumerate the same
graph. -/
def c3nodes : List ((String × String) × Migration) :=
  [(("b", "0001_init"), ⟨"b", "0001_init", [.otherOp "runpython"]⟩),
   (("a", "0002_more"), ⟨"a", "0002_more", [.modelOp "m1", .fieldOp "m2"]⟩),
   (("a", "0001_init"), ⟨"a", "0001_init", [.modelOp "m1"]⟩)]

/-- A strategy whose loader graph holds `c3nodes`. -/
def c3strategy : ModelDetectConflictStrategy := ⟨⟨c3nodes, []⟩⟩

/-- Witness for C3: the hypotheses hold for the permuted concrete loaders
and the determinism specification follows by applying the theorem there. -/
theorem write_manifest_file_deterministic_witness :
    (List.Perm c2strategy.loader.graph.nodes c3strategy.loader.graph.nodes
      ∧ (c2strategy.loader.graph.nodes.map Prod.fst).Nodup
      ∧ (∀ node ∈ c2strategy.loader.graph.nodes, node.1.1 ∈ c2apps)
      ∧ (∀ node ∈ c2strategy.loader.graph.nodes, node.2.app_label = node.1.1)
      ∧ (∀ lab ∈ c2apps, ('.' : Char) ∉ lab.data))
    ∧ ManifestDeterministicSpec c2strategy c3strategy () 0 c2apps :=
  ⟨⟨by decide, by decide, by decide, by decide, by decide⟩,
    write_manifest_file_deterministic c2strategy c3strategy () 0 c2apps
      (by decide) (by decide) (by decide) (by decide) (by decide)⟩

/-- **C10**: the `changes` argument has no effect on the manifest: the
parameter is never read by `write_manifest_file`, so two calls with
different `changes` (even of different types) write identical content, and
`utils.write_manifest` writes exactly what the strategy's
`write_manifest_file` writes. -/
theorem write_manifest_file_ignores_changes {α β : Type}
    (self : ModelDetectConflictStrategy) (changes1 : α) (changes2 : β)
    (app_labels : List String) :
    (self.write_manifest_file changes1 app_labels =
      self.write_manifest_file changes2 app_labels)
    ∧ write_manifest changes1 self app_labels =
        self.write_manifest_file changes1 app_labels :=
  ⟨rfl, rfl⟩

/-! ### The patched `MigrationGraph.leaf_nodes` -/

/-- `itertools.groupby(leaf_nodes, key=lambda t: t[0])`, with each group
reduced to `(app_label, [node[1] for node in grouper])`: consecutive runs of
equal app labels are merged. -/
def groupby : List (String × String) → List (String × List String)
  | [] => []
  | (a, n) :: rest =>
    match groupby rest with
    | (b, ns) :: t =>
      if a = b then (a, n :: ns) :: t else (a, [n]) :: (b, ns) :: t
    | [] => [(a, [n])]

/-- String order used for `sorted(migration_names)`. -/
def strLe (s1 s2 : String) : Prop := s1 ≤ s2

instance : DecidableRel strLe :=
  fun s1 s2 => inferInstanceAs (Decidable (s1 ≤ s2))

instance : IsTotal String strLe := ⟨fun s1 s2 => le_total s1 s2⟩

instance : IsTrans String strLe := ⟨fun _ _ _ h1 h2 => le_trans h1 h2⟩

/-- `_patched_leaf_nodes` (identical in `__init__.py` and `apps.py`): group
the original `leaf_nodes()` result by app label and keep
`sorted(migration_names)[-1]` for each group (the default value of
`getLastD` is never reached, every group being nonempty). -/
def _patched_leaf_nodes (leaf_nodes : List (String × String)) :
    List (String × String) :=
  (groupby leaf_nodes).map fun g =>
    (g.1, (List.insertionSort strLe g.2).getLastD "")

/-- Strict lexicographic order on `(app_label, migration_name)` pairs: what
the host's `leaf_nodes()` guarantees, returning `sorted(set_of_nodes)`. -/
def leafLt (p q : String × String) : Prop :=
  p.1 < q.1 ∨ (p.1 = q.1 ∧ p.2 < q.2)

instance (p q : String × String) : Decidable (leafLt p q) :=
  inferInstanceAs (Decidable (_ ∨ _))

theorem groupby_eq_nil_iff : ∀ l : List (String × String), groupby l = [] ↔ l = [] := by
  intro l
  cases l with
  | nil => simp [groupby]
  | cons x rest =>
    constructor
    · intro h
      obtain ⟨a, n⟩ := x
      unfold groupby at h
      cases hg : groupby rest with
      | nil => rw [hg] at h; simp at h
      | cons g t =>
        obtain ⟨b, ns⟩ := g
        rw [hg] at h
        by_cases hab : a = b <;> simp [hab] at h
    · intro h
      simp at h

theorem groupby_cons_head (x : String × String) (rest : List (String × String)) :
    ∃ ns t, groupby (x :: rest) = (x.1, ns) :: t := by
  obtain ⟨a, n⟩ := x
  unfold groupby
  cases hg : groupby rest with
  | nil => exact ⟨[n], [], rfl⟩
  | cons g t =>
    obtain ⟨b, ns⟩ := g
    by_cases hab : a = b
    · subst hab
      exact ⟨n :: ns, t, by simp⟩
    · exact ⟨[n], (b, ns) :: t, by simp [hab]⟩

theorem groupby_spec :
    ∀ l : List (String × String), l.Pairwise leafLt →
      ((groupby l).map Prod.fst).Nodup ∧
      ∀ app ns, ((app, ns) ∈ groupby l ↔
        (ns = (l.filter fun p => decide (p.1 = app)).map Prod.snd ∧ ns ≠ [])) := by
  intro l
  induction l with
  | nil =>
    intro _
    constructor
    · simp [groupby]
    · intro app ns
      simp [groupby]
  | cons x rest ih =>
    intro hp
    obtain ⟨a, n⟩ := x
    have hp1 : ∀ p ∈ rest, leafLt (a, n) p := (List.pairwise_cons.mp hp).1
    have hp2 : rest.Pairwise leafLt := (List.pairwise_cons.mp hp).2
    obtain ⟨ihN, ihM⟩ := ih hp2
    have hex : ∀ app ns, (app, ns) ∈ groupby rest → ∃ p ∈ rest, p.1 = app := by
      intro app ns hm
      obtain ⟨hns, hne⟩ := (ihM app ns).mp hm
      have hfne : (rest.filter fun p => decide (p.1 = app)) ≠ [] := by
        intro h0
        rw [h0] at hns
        exact hne hns
      obtain ⟨p, t2, hpt⟩ := List.exists_cons_of_ne_nil hfne
      have hmem : p ∈ rest.filter fun p => decide (p.1 = app) := by
        rw [hpt]
        exact List.mem_cons_self _ _
      obtain ⟨hpmem, hpdec⟩ := List.mem_filter.mp hmem
      exact ⟨p, hpmem, of_decide_eq_true hpdec⟩
    cases hgr : groupby rest with
    | nil =>
      have hrest : rest = [] := (groupby_eq_nil_iff rest).mp hgr
      subst hrest
      constructor
      · simp [groupby]
      · intro app ns
        have hg1 : groupby [(a, n)] = [(a, [n])] := rfl
        rw [hg1]
        by_cases happ : app = a
        · have hf : ([(a, n)].filter fun p => decide (p.1 = app)) = [(a, n)] := by
            subst happ
            simp
          rw [hf]
          constructor
          · intro hm
            have h2 : ns = [n] := (Prod.ext_iff.mp (List.mem_singleton.mp hm)).2
            refine ⟨?_, ?_⟩
            · rw [h2]
              rfl
            · rw [h2]
              simp
          · rintro ⟨hns, _⟩
            exact List.mem_singleton.mpr (Prod.ext happ hns)
        · have hf : ([(a, n)].filter fun p => decide (p.1 = app)) = [] := by
            rw [List.filter_eq_nil_iff]
            intro p hp
            rcases List.mem_singleton.mp hp with rfl
            simp only [decide_eq_true_eq]
            exact fun h => happ h.symm
          rw [hf]
          constructor
          · intro hm
            obtain ⟨h1, _⟩ := Prod.ext_iff.mp (List.mem_singleton.mp hm)
            exact absurd h1 happ
          · rintro ⟨hns, hne⟩
            exact absurd hns (by simpa using hne)
    | cons g t =>
      obtain ⟨b, ns0⟩ := g
      have hrne : rest ≠ [] := by
        intro h
        subst h
        simp [groupby] at hgr
      obtain ⟨y, rest', hyr⟩ := List.exists_cons_of_ne_nil hrne
      have hb : b = y.1 := by
        obtain ⟨ns1, t1, hhead⟩ := groupby_cons_head y rest'
        have hgr2 : groupby (y :: rest') = (b, ns0) :: t := by
          rw [← hyr]
          exact hgr
        rw [hgr2] at hhead
        have h3 := (List.cons.injEq _ _ _ _).mp hhead
        exact (Prod.ext_iff.mp h3.1).1
      have hymem : y ∈ rest := by
        rw [hyr]
        exact List.mem_cons_self _ _
      have hab_le : a ≤ b := by
        rcases hp1 y hymem with h | ⟨h, _⟩
        · exact le_of_lt (hb ▸ h)
        · exact le_of_eq (hb ▸ h)
      have hge : ∀ p ∈ rest, b ≤ p.1 := by
        intro p hpmem
        rw [hyr] at hpmem
        rcases List.mem_cons.mp hpmem with rfl | hpmem2
        · exact le_of_eq hb
        · have hyp : leafLt y p := by
            rw [hyr] at hp2
            exact (List.pairwise_cons.mp hp2).1 p hpmem2
          rcases hyp with h | ⟨h, _⟩
          · exact le_of_lt (hb ▸ h)
          · exact le_of_eq (hb ▸ h)
      by_cases hab : a = b
      · have hG : groupby ((a, n) :: rest) = (a, n :: ns0) :: t := by
          unfold groupby
          rw [hgr]
          simp [hab]
        have hGk : (groupby ((a, n) :: rest)).map Prod.fst =
            (groupby rest).map Prod.fst := by
          rw [hG, hgr, List.map_cons, List.map_cons, hab]
        constructor
        · rw [hGk]
          exact ihN
        · intro app ns
          rw [hG]
          have hns0mem : (b, ns0) ∈ groupby rest := by
            rw [hgr]
            exact List.mem_cons_self _ _
          obtain ⟨hns0, hns0ne⟩ := (ihM b ns0).mp hns0mem
          by_cases happ : app = a
          · subst happ
            rw [List.filter_cons_of_pos (by simp), List.map_cons]
            constructor
            · intro hm
              rcases List.mem_cons.mp hm with heq | hmt
              · have h2 : ns = n :: ns0 := (Prod.ext_iff.mp heq).2
                constructor
                · rw [h2, hns0, hab]
                · rw [h2]
                  simp
              · exfalso
                have hkey : app ∈ t.map Prod.fst :=
                  List.mem_map.mpr ⟨(app, ns), hmt, rfl⟩
                have : ((b, ns0) :: t).map Prod.fst = b :: t.map Prod.fst := rfl
                rw [hgr, this] at ihN
                have hbt : b ∉ t.map Prod.fst := (List.nodup_cons.mp ihN).1
                exact hbt (hab ▸ hkey)
            · rintro ⟨hns, _⟩
              have hns2 : ns = n :: ns0 := by
                rw [hns, hns0, hab]
              exact List.mem_cons.mpr (Or.inl (by rw [hns2]))
          · have hd : ¬ ((a, n).1 = app) := fun h => happ h.symm
            rw [List.filter_cons_of_neg (by simpa using hd)]
            have hiff := ihM app ns
            rw [hgr] at hiff
            constructor
            · intro hm
              rcases List.mem_cons.mp hm with heq | hmt
              · exfalso
                cases heq
                exact happ rfl
              · exact hiff.mp (List.mem_cons_of_mem _ hmt)
            · intro hrhs
              have := hiff.mpr hrhs
              rcases List.mem_cons.mp this with heq | hmt
              · exfalso
                have h1 : app = b := (Prod.ext_iff.mp heq).1
                exact happ (h1.trans hab.symm)
              · exact List.mem_cons_of_mem _ hmt
      · have hG : groupby ((a, n) :: rest) = (a, [n]) :: (b, ns0) :: t := by
          unfold groupby
          rw [hgr]
          simp [hab]
        have haX : ∀ p ∈ rest, p.1 ≠ a := by
          intro p hpmem heq
          have h1 : b ≤ a := heq ▸ hge p hpmem
          exact hab (le_antisymm hab_le h1)
        constructor
        · rw [hG, List.map_cons]
          rw [List.nodup_cons]
          constructor
          · intro hmem
            have : a ∈ (groupby rest).map Prod.fst := by
              rw [hgr]
              exact hmem
            obtain ⟨e, he, hefst⟩ := List.mem_map.mp this
            obtain ⟨p, hpmem, hp1e⟩ := hex e.1 e.2 (by
              have : e = (e.1, e.2) := rfl
              rw [← this]
              exact he)
            exact haX p hpmem (hefst ▸ hp1e)
          · have : ((b, ns0) :: t) = groupby rest := hgr.symm
            rw [this]
            exact ihN
        · intro app ns
          rw [hG]
          by_cases happ : app = a
          · subst happ
            have hfilter : (rest.filter fun p => decide (p.1 = app)) = [] := by
              rw [List.filter_eq_nil_iff]
              intro p hpmem
              simp only [decide_eq_true_eq]
              exact haX p hpmem
            rw [List.filter_cons_of_pos (by simp), hfilter, List.map_cons,
              List.map_nil]
            constructor
            · intro hm
              rcases List.mem_cons.mp hm with heq | hmt
              · cases heq
                exact ⟨rfl, by simp⟩
              · exfalso
                have : (app, ns) ∈ groupby rest := by
                  rw [hgr]
                  exact hmt
                obtain ⟨p, hpmem, hp1e⟩ := hex app ns this
                exact haX p hpmem hp1e
            · rintro ⟨hns, _⟩
              exact List.mem_cons.mpr (Or.inl (by rw [hns]))
          · have hd : ¬ ((a, n).1 = app) := fun h => happ h.symm
            rw [List.filter_cons_of_neg (by simpa using hd)]
            have hiff := ihM app ns
            rw [hgr] at hiff
            constructor
            · intro hm
              rcases List.mem_cons.mp hm with heq | hmt
              · exfalso
                cases heq
                exact happ rfl
              · exact hiff.mp hmt
            · intro hrhs
              exact List.mem_cons_of_mem _ (hiff.mpr hrhs)

theorem group_names_sorted (l : List (String × String))
    (hp : l.Pairwise leafLt) (app : String) :
    ((l.filter fun p => decide (p.1 = app)).map Prod.snd).Pairwise
      (fun s1 s2 : String => s1 < s2) := by
  rw [List.pairwise_map]
  have hF : (l.filter fun p => decide (p.1 = app)).Pairwise leafLt :=
    hp.filter _
  refine hF.imp_of_mem ?_
  intro p q hpmem hqmem hlt
  have hp1 : p.1 = app := of_decide_eq_true (List.mem_filter.mp hpmem).2
  have hq1 : q.1 = app := of_decide_eq_true (List.mem_filter.mp hqmem).2
  rcases hlt with h | ⟨_, h⟩
  · exact absurd (hp1.trans hq1.symm) (ne_of_lt h)
  · exact h

/-- The specification of the patched `leaf_nodes`: at most one leaf per app
label, and `(app, n)` is returned exactly when it is a leaf of the original
graph whose migration name is greatest (under string ordering) among that
app's leaves. -/
def PatchedLeafSpec (leaf_nodes : List (String × String)) : Prop :=
  ((_patched_leaf_nodes leaf_nodes).map Prod.fst).Nodup
  ∧ ∀ app n, ((app, n) ∈ _patched_leaf_nodes leaf_nodes ↔
      ((app, n) ∈ leaf_nodes ∧ ∀ n2, (app, n2) ∈ leaf_nodes → n2 ≤ n))

/-- **C4**: with the patch applied, `MigrationGraph.leaf_nodes` returns at
most one leaf per app label: for each app with at least one original leaf,
exactly the node with the greatest migration name among that app's leaves.
The hypothesis is that the original (host) `leaf_nodes()` result is strictly
sorted by `(app_label, migration_name)`, which Django guarantees by
returning `sorted(set_of_leaves)`. -/
theorem patched_leaf_nodes_spec (leaf_nodes : List (String × String))
    (hsorted : leaf_nodes.Pairwise leafLt) :
    PatchedLeafSpec leaf_nodes := by
  obtain ⟨hN, hM⟩ := groupby_spec leaf_nodes hsorted
  constructor
  · have h1 : (_patched_leaf_nodes leaf_nodes).map Prod.fst =
        (groupby leaf_nodes).map Prod.fst := by
      unfold _patched_leaf_nodes
      rw [List.map_map]
      rfl
    rw [h1]
    exact hN
  · intro app n
    constructor
    · intro hm
      obtain ⟨g, hg, hgeq⟩ := List.mem_map.mp hm
      obtain ⟨h1, h2⟩ := Prod.ext_iff.mp hgeq
      have h1x : g.1 = app := h1
      have hg2 : (app, g.2) ∈ groupby leaf_nodes := by
        have hgx : g = (app, g.2) := by rw [← h1x]
        rw [← hgx]
        exact hg
      obtain ⟨hns, hne⟩ := (hM app g.2).mp hg2
      have hnames : g.2.Pairwise (fun s1 s2 : String => s1 < s2) := by
        rw [hns]
        exact group_names_sorted leaf_nodes hsorted app
      have hsortle : g.2.Sorted strLe := hnames.imp fun h => le_of_lt h
      have hsid : List.insertionSort strLe g.2 = g.2 :=
        hsortle.insertionSort_eq
      have hsome : (g.2.getLast?).isSome = true := by
        simp only [List.getLast?_isSome]
        exact hne
      obtain ⟨y, hy⟩ := Option.isSome_iff_exists.mp hsome
      have hyn : y = n := by
        have h3 : (List.insertionSort strLe g.2).getLastD "" = n := h2
        rw [hsid, List.getLastD_eq_getLast?, hy] at h3
        exact h3
      have hymem : y ∈ g.2 := List.mem_of_getLast?_eq_some hy
      have hyl : (app, y) ∈ leaf_nodes := by
        rw [hns] at hymem
        obtain ⟨p, hpF, hpy⟩ := List.mem_map.mp hymem
        obtain ⟨hpl, hpdec⟩ := List.mem_filter.mp hpF
        have hpapp : p.1 = app := of_decide_eq_true hpdec
        have : p = (app, y) := Prod.ext hpapp hpy
        rw [← this]
        exact hpl
      refine ⟨hyn ▸ hyl, ?_⟩
      intro n2 hn2
      have hn2F : (app, n2) ∈ leaf_nodes.filter fun p => decide (p.1 = app) :=
        List.mem_filter.mpr ⟨hn2, by simp⟩
      have hn2ns : n2 ∈ g.2 := by
        rw [hns]
        exact List.mem_map.mpr ⟨(app, n2), hn2F, rfl⟩
      rcases pairwise_getLast hnames hy n2 hn2ns with rfl | hlt
      · exact le_of_eq hyn
      · exact hyn ▸ le_of_lt hlt
    · rintro ⟨hmem, hmax⟩
      have hnF : (app, n) ∈ leaf_nodes.filter fun p => decide (p.1 = app) :=
        List.mem_filter.mpr ⟨hmem, by simp⟩
      have hnns : n ∈ (leaf_nodes.filter fun p => decide (p.1 = app)).map
          Prod.snd :=
        List.mem_map.mpr ⟨(app, n), hnF, rfl⟩
      have hnsne : ((leaf_nodes.filter fun p => decide (p.1 = app)).map
          Prod.snd) ≠ [] := List.ne_nil_of_mem hnns
      have hgmem : (app, (leaf_nodes.filter fun p => decide (p.1 = app)).map
          Prod.snd) ∈ groupby leaf_nodes := (hM app _).mpr ⟨rfl, hnsne⟩
      have hnames : ((leaf_nodes.filter fun p => decide (p.1 = app)).map
          Prod.snd).Pairwise (fun s1 s2 : String => s1 < s2) :=
        group_names_sorted leaf_nodes hsorted app
      have hsortle : ((leaf_nodes.filter fun p => decide (p.1 = app)).map
          Prod.snd).Sorted strLe := hnames.imp fun h => le_of_lt h
      have hsid := hsortle.insertionSort_eq
      have hsome : ((((leaf_nodes.filter fun p => decide (p.1 = app)).map
          Prod.snd)).getLast?).isSome = true := by
        simp only [List.getLast?_isSome]
        exact hnsne
      obtain ⟨y, hy⟩ := Option.isSome_iff_exists.mp hsome
      have hymem := List.mem_of_getLast?_eq_some hy
      have hyl : (app, y) ∈ leaf_nodes := by
        obtain ⟨p, hpF, hpy⟩ := List.mem_map.mp hymem
        obtain ⟨hpl, hpdec⟩ := List.mem_filter.mp hpF
        have hpapp : p.1 = app := of_decide_eq_true hpdec
        have hpe : p = (app, y) := Prod.ext hpapp hpy
        rw [← hpe]
        exact hpl
      have hyn : y = n := by
        have h1 : y ≤ n := hmax y hyl
        have h2 : n ≤ y := by
          rcases pairwise_getLast hnames hy n hnns with rfl | hlt
          · exact le_refl _
          · exact le_of_lt hlt
        exact le_antisymm h1 h2
      have : (app, (List.insertionSort strLe ((leaf_nodes.filter
          fun p => decide (p.1 = app)).map Prod.snd)).getLastD "") ∈
          _patched_leaf_nodes leaf_nodes :=
        List.mem_map.mpr ⟨(app, _), hgmem, rfl⟩
      rw [hsid, List.getLastD_eq_getLast?, hy] at this
      exact hyn ▸ this

theorem string_lt_of_data {s1 s2 : String} (h : s1.data < s2.data) :
    s1 < s2 :=
  String.lt_iff_toList_lt.mpr h

theorem c4leaves_sorted :
    ([("a", "0001_init"), ("a", "0002_more"), ("b", "0001_init")].Pairwise
      leafLt) := by
  have h1 : ("0001_init" : String) < "0002_more" := string_lt_of_data (by decide)
  have hab : ("a" : String) < "b" := string_lt_of_data (by decide)
  refine List.Pairwise.cons ?_ (List.Pairwise.cons ?_
    (List.Pairwise.cons (by intro x hx; cases hx) List.Pairwise.nil))
  · intro p hp
    rcases List.mem_cons.mp hp with rfl | hp2
    · exact Or.inr ⟨rfl, h1⟩
    · rcases List.mem_singleton.mp hp2 with rfl
      exact Or.inl hab
  · intro p hp
    rcases List.mem_singleton.mp hp with rfl
    exact Or.inl hab

/-- Witness for C4: the hypothesis (a strictly sorted original leaf list)
holds for a concrete graph with two leaves in app `a` and one in app `b`,
and the specification follows by applying the theorem there. -/
theorem patched_leaf_nodes_spec_witness :
    ([("a", "0001_init"), ("a", "0002_more"), ("b", "0001_init")].Pairwise
      leafLt)
    ∧ PatchedLeafSpec [("a", "0001_init"), ("a", "0002_more"),
        ("b", "0001_init")] :=
  ⟨c4leaves_sorted,
    patched_leaf_nodes_spec
      [("a", "0001_init"), ("a", "0002_more"), ("b", "0001_init")]
      c4leaves_sorted⟩

/-! ### Python runtime errors -/

/-- The Python exceptions this embedding distinguishes. -/
inductive PyErr where
  | typeError (msg : String)
  | attributeError (msg : String)
deriving DecidableEq

/-! ### Strategy selection (`get_strategy`) -/

/-- The Django settings relevant here: the optional dotted path
`MIGRATION_CONFLICT_DETECTOR_STRATEGY`. -/
structure Settings where
  MIGRATION_CONFLICT_DETECTOR_STRATEGY : Option String

/-- A strategy class as `import_string` resolves it: this package's
`ModelDetectConflictStrategy`, or any other importable class named by its
dotted path. -/
inductive StrategyClass where
  | modelDetect
  | custom (path : String)
deriving DecidableEq

/-- A strategy instance: the class it was constructed from, together with
the state stored by `BaseConflictStrategy.__init__(loader)`. -/
structure StrategyInstance where
  cls : StrategyClass
  loader : MigrationLoader

/-- `django.utils.module_loading.import_string`, abstracted as an
environment mapping each dotted path to the class it resolves to. -/
def import_string (env : String → StrategyClass) (path : String) :
    StrategyClass :=
  env path

/-- `utils.get_strategy(loader)`: `getattr(settings,
"MIGRATION_CONFLICT_DETECTOR_STRATEGY")` with no default raises
`AttributeError` when the setting is absent; otherwise the resolved class is
called with the loader as its sole argument. -/
def get_strategy (env : String → StrategyClass) (settings : Settings)
    (loader : MigrationLoader) : Except PyErr StrategyInstance :=
  match settings.MIGRATION_CONFLICT_DETECTOR_STRATEGY with
  | none => .error (.attributeError
      "Settings object has no attribute MIGRATION_CONFLICT_DETECTOR_STRATEGY")
  | some strategy_dotted_path =>
    .ok ⟨import_string env strategy_dotted_path, loader⟩

/-- `DEFAULT_STRATEGY` of `__init__.py`. -/
def DEFAULT_STRATEGY : String :=
  "django_migration_extensions.strategies.ModelDetectConflictStrategy"

/-- `__init__.get_strategy`: identical, except that `getattr` is given
`DEFAULT_STRATEGY` as default, so it never raises. -/
def get_strategy_with_default (env : String → StrategyClass)
    (settings : Settings) (loader : MigrationLoader) : StrategyInstance :=
  ⟨import_string env
    (settings.MIGRATION_CONFLICT_DETECTOR_STRATEGY.getD DEFAULT_STRATEGY),
   loader⟩

/-- **C5**: with the strategy setting configured to a dotted path,
`get_strategy` resolves that path to a class and returns an instance of
exactly that class, constructed with the loader as its sole argument, whose
`loader` attribute is that loader. -/
theorem get_strategy_spec (env : String → StrategyClass) (settings : Settings)
    (loader : MigrationLoader) (path : String)
    (hset : settings.MIGRATION_CONFLICT_DETECTOR_STRATEGY = some path) :
    get_strategy env settings loader = .ok ⟨import_string env path, loader⟩
    ∧ (∀ inst, get_strategy env settings loader = .ok inst →
        inst.cls = import_string env path ∧ inst.loader = loader)
    ∧ get_strategy_with_default env settings loader =
        ⟨import_string env path, loader⟩ := by
  unfold get_strategy get_strategy_with_default
  rw [hset]
  refine ⟨rfl, ?_, rfl⟩
  intro inst hinst
  have h2 : (⟨import_string env path, loader⟩ : StrategyInstance) = inst := by
    injection hinst
  rw [← h2]
  exact ⟨rfl, rfl⟩

/-- The `import_string` environment of the concrete examples: the package's
own dotted path resolves to `ModelDetectConflictStrategy`, anything else to
a custom class. -/
def c5env (path : String) : StrategyClass :=
  if path = DEFAULT_STRATEGY then .modelDetect else .custom path

/-- Settings configured with the package's strategy. -/
def c5settings : Settings := ⟨some DEFAULT_STRATEGY⟩

/-- A loader over an empty graph. -/
def c5loader : MigrationLoader := ⟨⟨[], []⟩⟩

/-- Witness for C5: the setting is configured in `c5settings`, and the
specification follows by applying the theorem there. -/
theorem get_strategy_spec_witness :
    (c5settings.MIGRATION_CONFLICT_DETECTOR_STRATEGY = some DEFAULT_STRATEGY)
    ∧ ((get_strategy c5env c5settings c5loader =
          .ok ⟨import_string c5env DEFAULT_STRATEGY, c5loader⟩)
      ∧ (∀ inst, get_strategy c5env c5settings c5loader = .ok inst →
          inst.cls = import_string c5env DEFAULT_STRATEGY ∧
            inst.loader = c5loader)
      ∧ get_strategy_with_default c5env c5settings c5loader =
          ⟨import_string c5env DEFAULT_STRATEGY, c5loader⟩) :=
  ⟨rfl, get_strategy_spec c5env c5settings c5loader DEFAULT_STRATEGY rfl⟩

/-! ### The monkey-patches (`_patch_everything`) -/

/-- Dynamic dispatch of `detect_conflicts` on the instance's class: this
package defines it on `ModelDetectConflictStrategy`; any other class
behaves as the environment `envDetect` says. -/
def StrategyInstance.dispatch_detect_conflicts
    (envDetect : String → MigrationLoader → MigrationGraph →
      List (String × List String))
    (inst : StrategyInstance) (graph : MigrationGraph) :
    List (String × List String) :=
  match inst.cls with
  | .modelDetect =>
    ModelDetectConflictStrategy.detect_conflicts ⟨inst.loader⟩ graph
  | .custom path => envDetect path inst.loader graph

/-- `_patched_detect_conflicts`: `get_strategy(self).detect_conflicts(self.graph)`,
with `self` the loader. -/
def _patched_detect_conflicts (env : String → StrategyClass)
    (envDetect : String → MigrationLoader → MigrationGraph →
      List (String × List String))
    (settings : Settings) (self : MigrationLoader) :
    List (String × List String) :=
  (get_strategy_with_default env settings self).dispatch_detect_conflicts
    envDetect self.graph

/-- The host entry points the package may or may not replace: the two it
patches, plus two representative methods it must leave untouched. -/
structure HostMethods where
  graph_leaf_nodes : MigrationGraph → List (String × String)
  loader_detect_conflicts : MigrationLoader → List (String × List String)
  graph_forwards_plan : MigrationGraph → List (String × String)
  loader_build_graph : MigrationLoader → MigrationGraph

/-- `_patch_everything`: assign the patched leaf-node method (which calls
the captured `_original_leaf_nodes`, i.e. the pre-patch method) and the
patched `detect_conflicts`; every other entry point keeps its value. -/
def _patch_everything (env : String → StrategyClass)
    (envDetect : String → MigrationLoader → MigrationGraph →
      List (String × List String))
    (settings : Settings) (h : HostMethods) : HostMethods :=
  { h with
    graph_leaf_nodes := fun self => _patched_leaf_nodes (h.graph_leaf_nodes self)
    loader_detect_conflicts := fun self =>
      _patched_detect_conflicts env envDetect settings self }

/-- **C6**: after `_patch_everything`, exactly the two host methods
`MigrationGraph.leaf_nodes` and `MigrationLoader.detect_conflicts` are
replaced — the first by the patched leaf-node function over the original
one, the second by the patched function — the other entry points are
unchanged, and every call to the patched `detect_conflicts` returns the
configured strategy's `detect_conflicts` applied to the loader's own
graph. -/
theorem patch_everything_spec (env : String → StrategyClass)
    (envDetect : String → MigrationLoader → MigrationGraph →
      List (String × List String))
    (settings : Settings) (h : HostMethods) :
    ((_patch_everything env envDetect settings h).graph_leaf_nodes =
      fun self => _patched_leaf_nodes (h.graph_leaf_nodes self))
    ∧ ((_patch_everything env envDetect settings h).loader_detect_conflicts =
        fun self => _patched_detect_conflicts env envDetect settings self)
    ∧ ((_patch_everything env envDetect settings h).graph_forwards_plan =
        h.graph_forwards_plan)
    ∧ ((_patch_everything env envDetect settings h).loader_build_graph =
        h.loader_build_graph)
    ∧ (∀ self : MigrationLoader,
        (_patch_everything env envDetect settings h).loader_detect_conflicts
          self =
          (get_strategy_with_default env settings self).dispatch_detect_conflicts
            envDetect self.graph) :=
  ⟨rfl, rfl, rfl, rfl, fun _ => rfl⟩

/-! ### Which models an operation contributes (C7) -/

/-- The `name_lower` attribute, present on model-level operations. -/
def Operation.name_lower : Operation → Option String
  | .modelOp s => some s
  | _ => none

/-- The `model_name_lower` attribute, present on field-level operations. -/
def Operation.model_name_lower : Operation → Option String
  | .fieldOp s => some s
  | _ => none

/-- **C7**: the models a migration touches are exactly the pairs
`(migration.app_label, n)` where some operation is a model-level operation
with `name_lower = n` or a field-level operation with
`model_name_lower = n`; any other operation contributes no model. -/
theorem find_models_changed_spec (migration : Migration) (a nm : String) :
    (a, nm) ∈ _find_models_changed migration ↔
      (a = migration.app_label ∧
        ∃ op ∈ migration.operations,
          (is_model_operation op = true ∧ op.name_lower = some nm) ∨
          (is_field_operation op = true ∧ op.model_name_lower = some nm)) := by
  unfold _find_models_changed
  rw [List.mem_filterMap]
  constructor
  · rintro ⟨op, hop, heq⟩
    cases op with
    | modelOp s =>
      simp only [Option.some.injEq] at heq
      obtain ⟨h1, h2⟩ := Prod.ext_iff.mp heq
      have h2x : s = nm := h2
      refine ⟨h1.symm, Operation.modelOp s, hop, Or.inl ⟨rfl, ?_⟩⟩
      show some s = some nm
      rw [h2x]
    | fieldOp s =>
      simp only [Option.some.injEq] at heq
      obtain ⟨h1, h2⟩ := Prod.ext_iff.mp heq
      have h2x : s = nm := h2
      refine ⟨h1.symm, Operation.fieldOp s, hop, Or.inr ⟨rfl, ?_⟩⟩
      show some s = some nm
      rw [h2x]
    | otherOp k => simp at heq
  · rintro ⟨rfl, op, hop, h⟩
    cases op with
    | modelOp s =>
      rcases h with ⟨_, hn⟩ | ⟨hfo, _⟩
      · have hs : s = nm := by
          injection hn
        exact ⟨Operation.modelOp s, hop, by rw [hs]⟩
      · exact absurd hfo (by simp [is_field_operation])
    | fieldOp s =>
      rcases h with ⟨hmo, _⟩ | ⟨_, hn⟩
      · exact absurd hmo (by simp [is_model_operation])
      · have hs : s = nm := by
          injection hn
        exact ⟨Operation.fieldOp s, hop, by rw [hs]⟩
    | otherOp k =>
      rcases h with ⟨hmo, _⟩ | ⟨hfo, _⟩
      · exact absurd hmo (by simp [is_model_operation])
      · exact absurd hfo (by simp [is_field_operation])

/-! ### The Python-3 behaviour of the version checks (C8) -/

/-- The Python values compared by the version checks. -/
inductive PyVal where
  | pstr (s : String)
  | ptuple (t : List Nat)
deriving DecidableEq

/-- Python tuple `>=` on integer tuples (lexicographic, a strict prefix
being smaller). -/
def tupleGe : List Nat → List Nat → Bool
  | _, [] => true
  | [], _ :: _ => false
  | x :: t1, y :: t2 =>
    if y < x then true else if x < y then false else tupleGe t1 t2

/-- Python 3 `>=`: defined within one type, a `TypeError` across types —
the case hit by `get_version() >= (1, 10)`. -/
def pyGe (v1 v2 : PyVal) : Except PyErr Bool :=
  match v1, v2 with
  | .pstr s1, .pstr s2 => .ok (decide (s2 ≤ s1))
  | .ptuple t1, .ptuple t2 => .ok (tupleGe t1 t2)
  | .pstr _, .ptuple _ =>
    .error (.typeError "unorderable types: str and tuple")
  | .ptuple _, .pstr _ =>
    .error (.typeError "unorderable types: tuple and str")

/-- `django.get_version()`: returns the version as a `str` such as
`"3.0.5"`. -/
def get_version (version : String) : PyVal :=
  .pstr version

/-- `utils.is_field_operation` as executed: first evaluate
`get_version() >= (1, 10)`, then take the corresponding `isinstance`
branch.  (Both branches agree at this embedding's granularity: the Django
1.9 branch tests the four concrete `FieldOperation` subclasses.) -/
def is_field_operation_py3 (version : String) (operation : Operation) :
    Except PyErr Bool :=
  match pyGe (get_version version) (.ptuple [1, 10]) with
  | .error e => .error e
  | .ok true => .ok (is_field_operation operation)
  | .ok false => .ok (is_field_operation operation)

/-- `utils.is_model_operation` as executed.  (The Django 1.9 branch tests
nine concrete `ModelOperation` subclasses; at this embedding's granularity
that is the same model-operation test.) -/
def is_model_operation_py3 (version : String) (operation : Operation) :
    Except PyErr Bool :=
  match pyGe (get_version version) (.ptuple [1, 10]) with
  | .error e => .error e
  | .ok true => .ok (is_model_operation operation)
  | .ok false => .ok (is_model_operation operation)

/-- The generator `_find_models_changed` as executed under this dynamic
model: classify each operation in turn, propagating the first error. -/
def _find_models_changed_py3_go (version app_label : String) :
    List Operation → Except PyErr (List MModel)
  | [] => .ok []
  | op :: rest =>
    match is_model_operation_py3 version op with
    | .error e => .error e
    | .ok true =>
      match _find_models_changed_py3_go version app_label rest with
      | .error e => .error e
      | .ok ms => .ok ((app_label, (Operation.name_lower op).getD "") :: ms)
    | .ok false =>
      match is_field_operation_py3 version op with
      | .error e => .error e
      | .ok true =>
        match _find_models_changed_py3_go version app_label rest with
        | .error e => .error e
        | .ok ms =>
          .ok ((app_label, (Operation.model_name_lower op).getD "") :: ms)
      | .ok false => _find_models_changed_py3_go version app_label rest

/-- `_find_models_changed` under the dynamic model. -/
def _find_models_changed_py3 (version : String) (migration : Migration) :
    Except PyErr (List MModel) :=
  _find_models_changed_py3_go version migration.app_label migration.operations

/-- **C8**: on Python 3, each of `utils.is_model_operation` and
`utils.is_field_operation` raises `TypeError` on every call, because it
compares the version string returned by `get_version()` with the tuple
`(1, 10)`; consequently `_find_models_changed` raises on every migration
with at least one operation instead of classifying it. -/
theorem version_checks_raise_py3 (version : String) (operation : Operation)
    (migration : Migration) (h : migration.operations ≠ []) :
    get_version version = PyVal.pstr version
    ∧ is_model_operation_py3 version operation =
        .error (.typeError "unorderable types: str and tuple")
    ∧ is_field_operation_py3 version operation =
        .error (.typeError "unorderable types: str and tuple")
    ∧ _find_models_changed_py3 version migration =
        .error (.typeError "unorderable types: str and tuple") := by
  refine ⟨rfl, rfl, rfl, ?_⟩
  obtain ⟨app, nm, ops⟩ := migration
  cases ops with
  | nil => simp at h
  | cons op rest => rfl

/-- Witness for C8: `c1mig1` has an operation, and the theorem applies. -/
theorem version_checks_raise_py3_witness :
    c1mig1.operations ≠ []
    ∧ (get_version "3.0.5" = PyVal.pstr "3.0.5"
      ∧ is_model_operation_py3 "3.0.5" (Operation.modelOp "x") =
          .error (.typeError "unorderable types: str and tuple")
      ∧ is_field_operation_py3 "3.0.5" (Operation.modelOp "x") =
          .error (.typeError "unorderable types: str and tuple")
      ∧ _find_models_changed_py3 "3.0.5" c1mig1 =
          .error (.typeError "unorderable types: str and tuple")) :=
  ⟨by decide,
    version_checks_raise_py3 "3.0.5" (Operation.modelOp "x") c1mig1
      (by decide)⟩

/-! ### The broken `makemigrations` override (C9) -/

/-- The names bound at module level in `strategies.py`: its imports and the
only two classes it defines, `BaseConflictStrategy` and
`ModelDetectConflictStrategy`. -/
def strategies_module_names : List String :=
  ["itertools", "json", "OrderedDict", "apps", "settings", "utils",
   "BaseConflictStrategy", "ModelDetectConflictStrategy"]

/-- `getattr` on a module: `AttributeError` for an unbound name. -/
def module_getattr (names : List String) (attr : String) :
    Except PyErr Unit :=
  if attr ∈ names then .ok () else
    .error (.attributeError ("module has no attribute " ++ attr))

/-- The observable effects of `Command.write_migration_files`. -/
inductive CmdEffect where
  | base_write_migration_files
  | manifest_file_written
deriving DecidableEq

/-- The overriding `Command.write_migration_files` of the `makemigrations`
command: first delegate to the base command, then build a loader and look up
`strategies.SameModelDetectConflictStrategy` to write the manifest. -/
def Command.write_migration_files {α : Type} (changes : α) :
    List CmdEffect × Except PyErr Unit :=
  let effects := [CmdEffect.base_write_migration_files]
  match module_getattr strategies_module_names
      "SameModelDetectConflictStrategy" with
  | .error e => (effects, .error e)
  | .ok _ => (effects ++ [CmdEffect.manifest_file_written], .ok ())

/-- **C9**: every call to the overriding `write_migration_files` delegates
to the base command and then raises `AttributeError`, because
`strategies.SameModelDetectConflictStrategy` is not a name defined in the
`strategies` module; in particular the manifest is never written by this
command. -/
theorem write_migration_files_raises {α : Type} (changes : α) :
    Command.write_migration_files changes =
      ([CmdEffect.base_write_migration_files],
        .error (.attributeError
          "module has no attribute SameModelDetectConflictStrategy"))
    ∧ CmdEffect.manifest_file_written ∉
        (Command.write_migration_files changes).1
    ∧ "SameModelDetectConflictStrategy" ∉ strategies_module_names := by
  refine ⟨?_, ?_, by decide⟩
  · rfl
  · intro hmem
    have h1 : (Command.write_migration_files changes).1 =
        [CmdEffect.base_write_migration_files] := rfl
    rw [h1] at hmem
    rcases List.mem_singleton.mp hmem with h2
    cases h2
